import Mathlib

/-!
Verification of the coalescing free-list allocator
(`src/acl/allocators/coalescing_allocator.cpp`).

The allocator manages a contiguous `uint32_t` offset/size space through two
parallel arrays `offsets_` / `sizes_`, modelled here as a single list of
`(offset, size)` pairs.  Machine integers (`uint32_t`) are modelled as `Nat`
with explicit reduction `% 2^32` wherever the C++ performs arithmetic that
could wrap; comparisons on `uint32_t` values agree with comparisons on their
`Nat` images since all representable values are `< 2^32`.
-/

namespace Acl

/-- Size of the `uint32_t` value space: all machine values are `< M`. -/
def M : ℕ := 2 ^ 32

/-- Failure sentinel `std::numeric_limits<uint32_t>::max()` returned by
`allocate` when no free block is large enough. -/
def sentinel : ℕ := M - 1

/-- One free block: `(offset, size)`. -/
abbrev Block := ℕ × ℕ

/-- The free-list store: the two parallel vectors `offsets_` and `sizes_`
of the C++ class, zipped into one list of pairs (they are always kept at
equal length and mutated at identical indices). -/
abbrev FreeList := List Block

/-! ## The branchless binary search `mini2`

The C++ macro `ACL_BINARY_SEARCH_STEP2` performs
`middle = it + (size >> 1); size = (size + 1) >> 1;
 it = *middle < key ? middle : it;`.
We model the scan position `it` as an index and the element access through a
function `g : ℕ → ℕ` so that the same development covers the direct form
(`*it < key`) and the indirect form (`data[*it] < key`).  A state is the pair
`(it, size)`. -/

/-- One `ACL_BINARY_SEARCH_STEP2` of `mini2`. -/
def bsStep (g : ℕ → ℕ) (key : ℕ) (p : ℕ × ℕ) : ℕ × ℕ :=
  (if g (p.1 + p.2 / 2) < key then p.1 + p.2 / 2 else p.1, (p.2 + 1) / 2)

/-- The `do { STEP2; STEP2; } while (size > 2)` loop of `mini2`, with explicit
fuel.  Each executed iteration strictly decreases `size` whenever the loop
continues (`2 < size'` forces `size' < size`), so fuel `size + 1` always
suffices; the fuel layer only makes the recursion structural. -/
def bsLoopF (g : ℕ → ℕ) (key : ℕ) : ℕ → ℕ × ℕ → ℕ × ℕ
  | 0, p => p
  | fuel + 1, p =>
    let q := bsStep g key (bsStep g key p)
    if 2 < q.2 then bsLoopF g key fuel q else q

/-- The `do … while (size > 2)` loop of `mini2` (body always runs at least
once, matching the C++ `do`-`while`). -/
def bsLoop (g : ℕ → ℕ) (key : ℕ) (p : ℕ × ℕ) : ℕ × ℕ :=
  bsLoopF g key (p.2 + 1) p

/-- The first trailing resolution line `it += size > 1 && (*it < key);`. -/
def bsFinal1 (g : ℕ → ℕ) (key : ℕ) (p : ℕ × ℕ) : ℕ :=
  if 1 < p.2 ∧ g p.1 < key then p.1 + 1 else p.1

/-- Both trailing resolution lines of `mini2`
(`it += size > 1 && (*it < key); it += size > 0 && (*it < key);`). -/
def bsFinal (g : ℕ → ℕ) (key : ℕ) (p : ℕ × ℕ) : ℕ :=
  if 0 < p.2 ∧ g (bsFinal1 g key p) < key then bsFinal1 g key p + 1
  else bsFinal1 g key p

/-- The whole `mini2` routine over an abstract element accessor `g`,
started at base position `0` with window `size`. -/
def bsearch (g : ℕ → ℕ) (size key : ℕ) : ℕ :=
  bsFinal g key (bsLoop g key (0, size))

/-- Direct form `mini2(it, size, key)`: compares `*it < key` on the sequence
`a` (out-of-range reads are modelled by `getD _ 0`; the algorithm only reads
out of range when `size = 0`, where the read value cannot influence the
result). Returns the resulting position as an index into `a`. -/
def mini2 (a : List ℕ) (size key : ℕ) : ℕ :=
  bsearch (fun i => a.getD i 0) size key

/-- Indirect form `mini2(it, data, size, key)`: `it` scans the index array
`idxs` and comparisons are `data[*it] < key`. -/
def mini2Indirect (idxs data : List ℕ) (size key : ℕ) : ℕ :=
  bsearch (fun i => data.getD (idxs.getD i 0) 0) size key

/-- Lower bound as the spec words it: the position of the first entry that is
not less than `key`, or the end position (`a.length`) if every entry is less
than `key`. -/
def lowerBound (a : List ℕ) (key : ℕ) : ℕ :=
  match a with
  | [] => 0
  | x :: xs => if key ≤ x then 0 else lowerBound xs key + 1

/-! ## `allocate` -/

/-- `coalescing_allocator::allocate`: first-fit scan in ascending-offset
order.  On a fit the block is carved from its start (`sizes_[i] -= size;
offsets_[i] += size;`, the offset advance wrapping at `2^32`), and the block
is erased when its remaining size is zero.  Returns `(result, new store)`;
on failure the result is `sentinel` and the store is untouched. -/
def allocate (sz : ℕ) : FreeList → ℕ × FreeList
  | [] => (sentinel, [])
  | (o, s) :: rest =>
    if sz ≤ s then
      if s - sz = 0 then (o, rest)
      else (o, ((o + sz) % M, s - sz) :: rest)
    else
      let r := allocate sz rest
      (r.1, (o, s) :: r.2)

/-! ## `deallocate` -/

/-- Body of `coalescing_allocator::deallocate` after the non-emptiness
assertion: locate the insertion point with `mini2`, then merge/insert.
All `uint32_t` additions and the subtraction `offsets_[idx] -= size` wrap
modulo `2^32`.  `getD` accesses mirror `front()`, `back()`, `[idx-1]`,
`[idx]`; `set`, `eraseIdx`, `take/drop`-insertion mirror in-place update,
`erase` and `insert` on the parallel vectors. -/
def deallocCore (offset sz : ℕ) (fl : FreeList) : FreeList :=
  let n := fl.length
  let idx := mini2 (fl.map Prod.fst) n offset
  if idx = 0 then
    let f := fl.getD 0 (0, 0)
    if (offset + sz) % M = f.1 then (offset, (f.2 + sz) % M) :: fl.tail
    else (offset, sz) :: fl
  else if idx = n then
    let l := fl.getD (n - 1) (0, 0)
    if (l.1 + l.2) % M = offset then fl.set (n - 1) (l.1, (l.2 + sz) % M)
    else fl ++ [(offset, sz)]
  else
    let p := fl.getD (idx - 1) (0, 0)
    let s := fl.getD idx (0, 0)
    if (p.1 + p.2) % M = offset then
      if s.1 = (p.1 + (p.2 + sz) % M) % M then
        (fl.set (idx - 1) (p.1, ((p.2 + sz) % M + s.2) % M)).eraseIdx idx
      else fl.set (idx - 1) (p.1, (p.2 + sz) % M)
    else if s.1 = (offset + sz) % M then
      fl.set idx ((s.1 + (M - sz % M)) % M, (s.2 + sz) % M)
    else fl.take idx ++ (offset, sz) :: fl.drop idx

/-- `coalescing_allocator::deallocate`.  The function opens with
`assert(!offsets_.empty())`: calling it on an empty store is a contract
violation (abort in debug builds, undefined otherwise), modelled as `none`. -/
def deallocate (offset sz : ℕ) (fl : FreeList) : Option FreeList :=
  if fl = [] then none else some (deallocCore offset sz fl)

/-- Modelled from the spec (§4.3): the four-way case analysis the spec
describes for `deallocate` — locate the lower-bound insertion point by
offset, then (1) at the front merge when the freed end meets the first entry
else insert a new front entry, (2) past the last entry grow the last entry
when its end meets the freed start else append, (3) in the interior grow the
predecessor when its end meets the freed offset and additionally absorb the
successor when the grown predecessor reaches it (merge-both), else grow the
successor backward when the freed end meets its offset, else insert a
standalone entry at the insertion point. -/
def deallocSpec (offset sz : ℕ) (fl : FreeList) : FreeList :=
  let n := fl.length
  let idx := lowerBound (fl.map Prod.fst) offset
  if idx = 0 then
    let f := fl.getD 0 (0, 0)
    if offset + sz = f.1 then (offset, f.2 + sz) :: fl.tail
    else (offset, sz) :: fl
  else if idx = n then
    let l := fl.getD (n - 1) (0, 0)
    if l.1 + l.2 = offset then fl.take (n - 1) ++ [(l.1, l.2 + sz)]
    else fl ++ [(offset, sz)]
  else
    let p := fl.getD (idx - 1) (0, 0)
    let s := fl.getD idx (0, 0)
    if p.1 + p.2 = offset then
      if s.1 = offset + sz then
        fl.take (idx - 1) ++ (p.1, p.2 + sz + s.2) :: fl.drop (idx + 1)
      else fl.take (idx - 1) ++ (p.1, p.2 + sz) :: fl.drop idx
    else if s.1 = offset + sz then
      fl.take idx ++ (offset, s.2 + sz) :: fl.drop (idx + 1)
    else fl.take idx ++ (offset, sz) :: fl.drop idx

/-! ## Invariants and preconditions -/

/-- The four free-list invariants of the spec (§3): (1) offsets strictly
ascending, (2) consecutive entries non-overlapping, (3) consecutive entries
non-adjacent, (4) every stored size strictly positive. -/
def Inv (fl : FreeList) : Prop :=
  List.Chain' (fun a b : Block => a.1 < b.1) fl ∧
  List.Chain' (fun a b : Block => a.1 + a.2 ≤ b.1) fl ∧
  List.Chain' (fun a b : Block => a.1 + a.2 < b.1) fl ∧
  ∀ b ∈ fl, 0 < b.2

/-- Representability of a store state in the `uint32_t` machine type: every
block lies inside the value space (its end does not pass `2^32`).  This holds
for every state the C++ object can be in. -/
def Bounded (fl : FreeList) : Prop :=
  ∀ b ∈ fl, b.1 + b.2 < M

/-- The freed range does not intersect any currently free block (the spec's
precondition that `(offset, size)` is not currently marked free). -/
def DisjointFrom (fl : FreeList) (offset sz : ℕ) : Prop :=
  ∀ b ∈ fl, offset + sz ≤ b.1 ∨ b.1 + b.2 ≤ offset

/-! ## Access-trace instrumentation (for the bounds-safety claim)

These definitions repeat the control flow of `mini2` / `deallocCore` and
collect, instead of the result, the index of every element read from the
offsets sequence (the `sizes_` array is only ever accessed at the same
indices). -/

/-- Index read by one `ACL_BINARY_SEARCH_STEP2` (the `*middle` read). -/
def bsStepReads (p : ℕ × ℕ) : List ℕ :=
  [p.1 + p.2 / 2]

/-- Indices read by the `do`-`while` loop of `mini2`. -/
def bsLoopReadsF (g : ℕ → ℕ) (key : ℕ) : ℕ → ℕ × ℕ → List ℕ
  | 0, _ => []
  | fuel + 1, p =>
    let q := bsStep g key (bsStep g key p)
    bsStepReads p ++ bsStepReads (bsStep g key p) ++
      (if 2 < q.2 then bsLoopReadsF g key fuel q else [])

/-- Indices read by the two trailing resolution lines of `mini2` (each read
is short-circuited behind its `size > _` guard). -/
def bsFinalReads (g : ℕ → ℕ) (key : ℕ) (p : ℕ × ℕ) : List ℕ :=
  (if 1 < p.2 then [p.1] else []) ++ (if 0 < p.2 then [bsFinal1 g key p] else [])

/-- All indices `mini2` reads from its sequence. -/
def bsearchReads (g : ℕ → ℕ) (size key : ℕ) : List ℕ :=
  bsLoopReadsF g key (size + 1) (0, size) ++ bsFinalReads g key (bsLoop g key (0, size))

/-- All indices `deallocate` accesses in `offsets_`/`sizes_`: the binary
search reads, then per branch the `front()` access (index 0), the `back()`
access (index `n-1`), or the interior accesses at `idx-1` and `idx`. -/
def deallocReads (offset sz : ℕ) (fl : FreeList) : List ℕ :=
  let n := fl.length
  let g := fun i => (fl.map Prod.fst).getD i 0
  let idx := mini2 (fl.map Prod.fst) n offset
  bsearchReads g n offset ++
    (if idx = 0 then [0] else if idx = n then [n - 1] else [idx - 1, idx])

/-! ## Call traces (for the conservation claim) -/

/-- Sum of the stored free-block sizes. -/
def sumSizes (fl : FreeList) : ℕ :=
  (fl.map Prod.snd).sum

/-- One external call to the allocator. -/
inductive Op where
  | alloc : ℕ → Op
  | dealloc : ℕ → ℕ → Op
deriving DecidableEq

/-- Allocator store together with the caller-side multiset of live
allocations (each recorded as the returned `(offset, size)`). -/
structure AllocState where
  fl : FreeList
  live : List (ℕ × ℕ)
deriving DecidableEq

/-- Sum of the live-allocation sizes. -/
def sumLive (live : List (ℕ × ℕ)) : ℕ :=
  (live.map Prod.snd).sum

/-- One valid call: an `alloc` always runs (on failure, signalled by the
`sentinel` result, nothing is recorded); a `dealloc offset sz` is valid only
when `(offset, sz)` is a live allocation and the store is non-empty
(`deallocate`'s precondition), otherwise the trace is rejected (`none`). -/
def step (s : AllocState) : Op → Option AllocState
  | .alloc sz =>
    let r := allocate sz s.fl
    if r.1 = sentinel then some ⟨r.2, s.live⟩
    else some ⟨r.2, (r.1, sz) :: s.live⟩
  | .dealloc offset sz =>
    if (offset, sz) ∈ s.live then
      match deallocate offset sz s.fl with
      | some fl' => some ⟨fl', s.live.erase (offset, sz)⟩
      | none => none
    else none

/-- Run a sequence of calls, rejecting the whole trace if any call is
invalid. -/
def run (ops : List Op) (s : AllocState) : Option AllocState :=
  match ops with
  | [] => some s
  | op :: rest =>
    match step s op with
    | some s' => run rest s'
    | none => none

/-- Machine-representability with the sentinel reserved (spec §6: the
sentinel "must be reserved (never a valid offset) by convention"): every
stored offset is below the sentinel and every block end is at most the
sentinel. -/
def FB (fl : FreeList) : Prop :=
  ∀ b ∈ fl, b.1 < sentinel ∧ b.1 + b.2 ≤ sentinel

/-- The same representability bound for the recorded live allocations. -/
def LB (live : List (ℕ × ℕ)) : Prop :=
  ∀ p ∈ live, p.1 < sentinel ∧ p.1 + p.2 ≤ sentinel

/-- Trace invariant for the conservation claim: representability of store and
live records, and conservation of the total managed size. -/
def TraceInv (total : ℕ) (s : AllocState) : Prop :=
  FB s.fl ∧ LB s.live ∧ sumSizes s.fl + sumLive s.live = total

/-! ## Lemmas: binary search -/

/-- `L` is the lower-bound position of `key` in the length-`n` sequence read
through `g`: everything before `L` is `< key` and everything from `L` on is
`≥ key`. -/
def IsLB (g : ℕ → ℕ) (n key L : ℕ) : Prop :=
  L ≤ n ∧ (∀ i, i < L → g i < key) ∧ ∀ i, L ≤ i → i < n → key ≤ g i

/-! ## Lemmas: binary search -/

theorem bsStep_fst (g : ℕ → ℕ) (key : ℕ) (p : ℕ × ℕ) :
    (bsStep g key p).1 = if g (p.1 + p.2 / 2) < key then p.1 + p.2 / 2 else p.1 :=
  rfl

theorem bsStep_snd (g : ℕ → ℕ) (key : ℕ) (p : ℕ × ℕ) :
    (bsStep g key p).2 = (p.2 + 1) / 2 := rfl

theorem bsLoopF_succ (g : ℕ → ℕ) (key : ℕ) (fuel : ℕ) (p : ℕ × ℕ) :
    bsLoopF g key (fuel + 1) p =
      if 2 < (bsStep g key (bsStep g key p)).2 then
        bsLoopF g key fuel (bsStep g key (bsStep g key p))
      else bsStep g key (bsStep g key p) := rfl

theorem bsStep_le (g : ℕ → ℕ) (key : ℕ) (p : ℕ × ℕ) :
    p.1 ≤ (bsStep g key p).1 ∧
      (bsStep g key p).1 + (bsStep g key p).2 ≤ p.1 + p.2 := by
  rw [bsStep_snd]
  rw [bsStep_fst]
  split <;> omega

theorem bsStep_isLB {g : ℕ → ℕ} {n key L : ℕ} (h : IsLB g n key L) (p : ℕ × ℕ)
    (h1 : p.1 ≤ L) (h2 : L ≤ p.1 + p.2) (h3 : p.1 + p.2 ≤ n) :
    (bsStep g key p).1 ≤ L ∧ L ≤ (bsStep g key p).1 + (bsStep g key p).2 ∧
      (bsStep g key p).1 + (bsStep g key p).2 ≤ n := by
  obtain ⟨hLn, hlt, hge⟩ := h
  rw [bsStep_snd]
  rw [bsStep_fst]
  rcases Nat.eq_zero_or_pos p.2 with hz | hpos
  · split <;> omega
  · have hmid : p.1 + p.2 / 2 < n := by omega
    by_cases hcmp : g (p.1 + p.2 / 2) < key
    · have hL : p.1 + p.2 / 2 < L := by
        by_contra hc
        exact absurd (hge (p.1 + p.2 / 2) (by omega) hmid) (by omega)
      rw [if_pos hcmp]
      omega
    · have hL : L ≤ p.1 + p.2 / 2 := by
        by_contra hc
        exact absurd (hlt (p.1 + p.2 / 2) (by omega)) (by omega)
      rw [if_neg hcmp]
      omega

theorem bsLoopF_isLB {g : ℕ → ℕ} {n key L : ℕ} (h : IsLB g n key L) :
    ∀ fuel (p : ℕ × ℕ), p.2 ≤ fuel →
      p.1 ≤ L → L ≤ p.1 + p.2 → p.1 + p.2 ≤ n →
      (bsLoopF g key (fuel + 1) p).1 ≤ L ∧
        L ≤ (bsLoopF g key (fuel + 1) p).1 + (bsLoopF g key (fuel + 1) p).2 ∧
        (bsLoopF g key (fuel + 1) p).1 + (bsLoopF g key (fuel + 1) p).2 ≤ n ∧
        (bsLoopF g key (fuel + 1) p).2 ≤ 2 := by
  intro fuel
  induction fuel with
  | zero =>
    intro p hf h1 h2 h3
    have h0 : p.2 = 0 := by omega
    obtain ⟨q1, q2, q3⟩ := bsStep_isLB ⟨h.1, h.2.1, h.2.2⟩ p h1 h2 h3
    obtain ⟨r1, r2, r3⟩ := bsStep_isLB ⟨h.1, h.2.1, h.2.2⟩ _ q1 q2 q3
    have hq2 : (bsStep g key (bsStep g key p)).2 ≤ 2 := by
      rw [bsStep_snd, bsStep_snd]
      omega
    rw [bsLoopF_succ, if_neg (by omega)]
    exact ⟨r1, r2, r3, hq2⟩
  | succ f ih =>
    intro p hf h1 h2 h3
    obtain ⟨q1, q2, q3⟩ := bsStep_isLB ⟨h.1, h.2.1, h.2.2⟩ p h1 h2 h3
    obtain ⟨r1, r2, r3⟩ := bsStep_isLB ⟨h.1, h.2.1, h.2.2⟩ _ q1 q2 q3
    have hq2 : (bsStep g key (bsStep g key p)).2 = ((p.2 + 1) / 2 + 1) / 2 := by
      rw [bsStep_snd, bsStep_snd]
    rw [bsLoopF_succ]
    by_cases hc : 2 < (bsStep g key (bsStep g key p)).2
    · rw [if_pos hc]
      exact ih (bsStep g key (bsStep g key p)) (by omega) r1 r2 r3
    · rw [if_neg hc]
      exact ⟨r1, r2, r3, by omega⟩

theorem bsFinal_isLB {g : ℕ → ℕ} {n key L : ℕ} (h : IsLB g n key L) (p : ℕ × ℕ)
    (h1 : p.1 ≤ L) (h2 : L ≤ p.1 + p.2) (h3 : p.1 + p.2 ≤ n) (h4 : p.2 ≤ 2) :
    bsFinal g key p = L := by
  obtain ⟨hLn, hlt, hge⟩ := h
  obtain ⟨i, s⟩ := p
  simp only at h1 h2 h3 h4
  have hj : bsFinal g key (i, s) =
      if 0 < s ∧ g (bsFinal1 g key (i, s)) < key then bsFinal1 g key (i, s) + 1
      else bsFinal1 g key (i, s) := rfl
  rcases Nat.eq_zero_or_pos s with hs0 | hs
  · subst hs0
    have hjv : bsFinal1 g key (i, 0) = i := by
      unfold bsFinal1
      rw [if_neg (by simp)]
    rw [hj, hjv, if_neg (by simp)]
    omega
  · have hjfacts : bsFinal1 g key (i, s) ≤ L ∧ L ≤ bsFinal1 g key (i, s) + 1 ∧
        bsFinal1 g key (i, s) + 1 ≤ n := by
      unfold bsFinal1
      by_cases hc : 1 < (i, s).2 ∧ g (i, s).1 < key
      · rw [if_pos hc]
        simp only at hc
        have hs2 : s = 2 := by omega
        have hiL : i < L := by
          by_contra hcon
          exact absurd (hge i (by omega) (by omega)) (by omega)
        refine ⟨by omega, by omega, by omega⟩
      · rw [if_neg hc]
        simp only at hc
        rcases (by omega : s = 1 ∨ s = 2) with h' | h'
        · exact ⟨by omega, by omega, by omega⟩
        · have hnc : ¬ g i < key := fun hgi => hc ⟨by omega, hgi⟩
          have hLi : L ≤ i := by
            by_contra hcon
            exact absurd (hlt i (by omega)) hnc
          exact ⟨by omega, by omega, by omega⟩
    obtain ⟨ja, jb, jc⟩ := hjfacts
    rw [hj]
    by_cases hcj : g (bsFinal1 g key (i, s)) < key
    · rw [if_pos ⟨hs, hcj⟩]
      have : bsFinal1 g key (i, s) < L := by
        by_contra hcon
        exact absurd (hge (bsFinal1 g key (i, s)) (by omega) (by omega)) (by omega)
      omega
    · rw [if_neg (by simp [hcj])]
      have : L ≤ bsFinal1 g key (i, s) := by
        by_contra hcon
        exact absurd (hlt (bsFinal1 g key (i, s)) (by omega)) hcj
      omega

/-- Main correctness of the branchless search: on a sequence read through `g`
whose lower-bound position for `key` is `L`, the search returns `L`. -/
theorem bsearch_eq {g : ℕ → ℕ} {n key L : ℕ} (h : IsLB g n key L) :
    bsearch g n key = L := by
  obtain ⟨q1, q2, q3, q4⟩ :=
    bsLoopF_isLB h n (0, n) (le_refl _) (Nat.zero_le _) (by simpa using h.1)
      (by simp)
  exact bsFinal_isLB h _ q1 q2 q3 q4

/-- Unconditional bounds on the loop result: the window stays inside
`[0, n]`, ends with size ≤ 2, and keeps size ≥ 1 when it started ≥ 1. -/
theorem bsLoopF_bounds (g : ℕ → ℕ) (key : ℕ) :
    ∀ fuel (p : ℕ × ℕ) (n : ℕ), p.2 ≤ fuel → p.1 + p.2 ≤ n →
      (bsLoopF g key (fuel + 1) p).1 + (bsLoopF g key (fuel + 1) p).2 ≤ n ∧
        (bsLoopF g key (fuel + 1) p).2 ≤ 2 ∧
        (1 ≤ p.2 → 1 ≤ (bsLoopF g key (fuel + 1) p).2) := by
  intro fuel
  induction fuel with
  | zero =>
    intro p n hf h3
    have h0 : p.2 = 0 := by omega
    have hq := (bsStep_le g key p).2
    have hq' := (bsStep_le g key p).1
    have hr := (bsStep_le g key (bsStep g key p)).2
    have hq2 : (bsStep g key (bsStep g key p)).2 ≤ 2 := by
      rw [bsStep_snd, bsStep_snd]
      omega
    rw [bsLoopF_succ, if_neg (by omega)]
    exact ⟨by omega, hq2, by omega⟩
  | succ f ih =>
    intro p n hf h3
    have hq := (bsStep_le g key p).2
    have hr := (bsStep_le g key (bsStep g key p)).2
    have hq2 : (bsStep g key (bsStep g key p)).2 = ((p.2 + 1) / 2 + 1) / 2 := by
      rw [bsStep_snd, bsStep_snd]
    rw [bsLoopF_succ]
    by_cases hc : 2 < (bsStep g key (bsStep g key p)).2
    · rw [if_pos hc]
      obtain ⟨a, b, c⟩ := ih (bsStep g key (bsStep g key p)) n (by omega) (by omega)
      exact ⟨a, b, fun _ => c (by omega)⟩
    · rw [if_neg hc]
      refine ⟨by omega, by omega, fun h1 => ?_⟩
      rw [hq2]
      omega

/-- The search result never exceeds the window size `n`. -/
theorem bsearch_le (g : ℕ → ℕ) (n key : ℕ) : bsearch g n key ≤ n := by
  obtain ⟨a, b, _⟩ := bsLoopF_bounds g key n (0, n) n (le_refl _) (by simp)
  unfold bsearch bsLoop
  simp only
  generalize hq : bsLoopF g key (n + 1) (0, n) = q at a b
  unfold bsFinal bsFinal1
  by_cases h1 : 1 < q.2 ∧ g q.1 < key
  · rw [if_pos h1]
    split <;> omega
  · rw [if_neg h1]
    split <;> omega

/-! ## Lemmas: `lowerBound` and the two `mini2` forms -/

theorem getD_mem {α : Type _} {l : List α} {i : ℕ} {d : α} (h : i < l.length) :
    l.getD i d ∈ l := by
  induction l generalizing i with
  | nil => simp at h
  | cons x xs ih =>
    cases i with
    | zero => simp
    | succ j =>
      simp only [List.getD_cons_succ]
      exact List.mem_cons_of_mem _ (ih (by simpa using h))

theorem getD_map_fun {idxs data : List ℕ} {i : ℕ} (h : i < idxs.length) :
    (idxs.map fun j => data.getD j 0).getD i 0 = data.getD (idxs.getD i 0) 0 := by
  induction idxs generalizing i with
  | nil => simp at h
  | cons x xs ih =>
    cases i with
    | zero => simp
    | succ j => simpa using ih (by simpa using h)

theorem lowerBound_le_length (a : List ℕ) (key : ℕ) :
    lowerBound a key ≤ a.length := by
  induction a with
  | nil => simp [lowerBound]
  | cons x xs ih =>
    unfold lowerBound
    split <;> simp <;> omega

theorem lowerBound_getD_lt {a : List ℕ} {key : ℕ} :
    ∀ i, i < lowerBound a key → a.getD i 0 < key := by
  induction a with
  | nil => simp [lowerBound]
  | cons x xs ih =>
    intro i hi
    unfold lowerBound at hi
    split at hi
    · omega
    · cases i with
      | zero => simpa using by omega
      | succ j =>
        simp only [List.getD_cons_succ]
        exact ih j (by omega)

theorem lowerBound_getD_ge {a : List ℕ} {key : ℕ} (hs : a.Sorted (· ≤ ·)) :
    ∀ i, lowerBound a key ≤ i → i < a.length → key ≤ a.getD i 0 := by
  induction a with
  | nil => simp
  | cons x xs ih =>
    intro i hL hi
    unfold lowerBound at hL
    split at hL
    · cases i with
      | zero => simpa
      | succ j =>
        simp only [List.getD_cons_succ]
        have hmem : xs.getD j 0 ∈ xs := getD_mem (by simpa using hi)
        exact le_trans (by assumption) (List.rel_of_sorted_cons hs _ hmem)
    · cases i with
      | zero => omega
      | succ j =>
        simp only [List.getD_cons_succ]
        exact ih hs.of_cons j (by omega) (by simpa using hi)

theorem isLB_lowerBound {a : List ℕ} {key : ℕ} (hs : a.Sorted (· ≤ ·)) :
    IsLB (fun i => a.getD i 0) a.length key (lowerBound a key) :=
  ⟨lowerBound_le_length a key, fun i hi => lowerBound_getD_lt i hi,
    fun i h1 h2 => lowerBound_getD_ge hs i h1 h2⟩

/-- The direct `mini2` computes the lower bound on a sorted sequence. -/
theorem mini2_lowerBound {a : List ℕ} {key : ℕ} (hs : a.Sorted (· ≤ ·)) :
    mini2 a a.length key = lowerBound a key :=
  bsearch_eq (isLB_lowerBound hs)

/-- The indirect `mini2` computes the lower bound of the dereferenced
sequence `data[idxs[·]]` when that sequence is sorted. -/
theorem mini2Indirect_lowerBound {idxs data : List ℕ} {key : ℕ}
    (hs : (idxs.map fun j => data.getD j 0).Sorted (· ≤ ·)) :
    mini2Indirect idxs data idxs.length key =
      lowerBound (idxs.map fun j => data.getD j 0) key := by
  have hlen : (idxs.map fun j => data.getD j 0).length = idxs.length := by simp
  apply bsearch_eq
  obtain ⟨h1, h2, h3⟩ := @isLB_lowerBound (idxs.map fun j => data.getD j 0) key hs
  refine ⟨by omega, fun i hi => ?_, fun i hL hi => ?_⟩
  · show data.getD (idxs.getD i 0) 0 < key
    rw [← getD_map_fun (by omega : i < idxs.length)]
    exact h2 i hi
  · show key ≤ data.getD (idxs.getD i 0) 0
    rw [← getD_map_fun (by omega : i < idxs.length)]
    exact h3 i hL (by omega)

/-! ## Lemmas: `allocate` -/

theorem M_pos : 0 < M := by
  unfold M
  norm_num

theorem chain3_pairwise {fl : FreeList}
    (h : List.Chain' (fun a b : Block => a.1 + a.2 < b.1) fl) :
    List.Pairwise (fun a b : Block => a.1 + a.2 < b.1) fl :=
  (@List.chain'_iff_pairwise _ _ ⟨fun a b c h1 h2 => by omega⟩ _).mp h

theorem chain1_pairwise {fl : FreeList}
    (h : List.Chain' (fun a b : Block => a.1 < b.1) fl) :
    List.Pairwise (fun a b : Block => a.1 < b.1) fl :=
  (@List.chain'_iff_pairwise _ _ ⟨fun a b c h1 h2 => by omega⟩ _).mp h

/-- The four spec invariants reduce to non-adjacency of consecutive blocks
plus positivity of sizes. -/
theorem Inv_iff (fl : FreeList) :
    Inv fl ↔
      List.Chain' (fun a b : Block => a.1 + a.2 < b.1) fl ∧ ∀ b ∈ fl, 0 < b.2 := by
  constructor
  · exact fun h => ⟨h.2.2.1, h.2.2.2⟩
  · rintro ⟨h3, h4⟩
    exact ⟨h3.imp (fun a b hab => by omega), h3.imp (fun a b hab => by omega), h3, h4⟩

/-- If no stored block fits, `allocate` returns the sentinel and leaves the
store untouched. -/
theorem allocate_no_fit {sz : ℕ} :
    ∀ {fl : FreeList}, (∀ b ∈ fl, b.2 < sz) → allocate sz fl = (sentinel, fl) := by
  intro fl
  induction fl with
  | nil => intro _; rfl
  | cons b rest ih =>
    intro h
    obtain ⟨o, s⟩ := b
    have hs : s < sz := by simpa using h (o, s) (by simp)
    unfold allocate
    rw [if_neg (by omega)]
    simp [ih fun b hb => h b (List.mem_cons_of_mem _ hb)]

/-- First-fit characterization of `allocate`: if block `i` fits and every
block before it is too small, the result is block `i`'s offset, and block `i`
is advanced/shrunk, being erased exactly when its size equals the request. -/
theorem allocate_first_fit {sz : ℕ} :
    ∀ {fl : FreeList} {i : ℕ}, Bounded fl → i < fl.length →
      sz ≤ (fl.getD i (0, 0)).2 → (∀ b ∈ fl.take i, b.2 < sz) →
      allocate sz fl =
        ((fl.getD i (0, 0)).1,
          if (fl.getD i (0, 0)).2 - sz = 0 then fl.eraseIdx i
          else fl.set i ((fl.getD i (0, 0)).1 + sz, (fl.getD i (0, 0)).2 - sz)) := by
  intro fl
  induction fl with
  | nil => intro i _ hi; simp at hi
  | cons b rest ih =>
    intro i hB hi hfit hfirst
    obtain ⟨o, s⟩ := b
    cases i with
    | zero =>
      simp only [List.getD_cons_zero] at hfit ⊢
      have hoM : o + s < M := by simpa using hB (o, s) (by simp)
      unfold allocate
      rw [if_pos hfit]
      by_cases hz : s - sz = 0
      · rw [if_pos hz]
        simp [hz]
      · rw [if_neg hz, if_neg hz]
        have : (o + sz) % M = o + sz := Nat.mod_eq_of_lt (by omega)
        simp [this]
    | succ j =>
      have hs : s < sz := by
        have := hfirst (o, s) (by simp [List.take_succ_cons])
        simpa using this
      unfold allocate
      rw [if_neg (by omega)]
      have hrest := ih (fun b hb => hB b (List.mem_cons_of_mem _ hb))
        (by simpa using hi) (by simpa using hfit)
        (fun b hb => hfirst b (by simp [List.take_succ_cons, hb]))
      simp only [List.getD_cons_succ]
      rw [hrest]
      by_cases hz : (rest.getD j (0, 0)).2 - sz = 0
      · rw [if_pos hz, if_pos hz]
        simp [List.eraseIdx_cons_succ]
      · rw [if_neg hz, if_neg hz]
        simp [List.set_cons_succ]

/-- On success the returned offset is the offset of some fitting block. -/
theorem allocate_ret_mem {sz : ℕ} :
    ∀ {fl : FreeList}, (∃ b ∈ fl, sz ≤ b.2) →
      ∃ b ∈ fl, (allocate sz fl).1 = b.1 ∧ sz ≤ b.2 := by
  intro fl
  induction fl with
  | nil => simp
  | cons b rest ih =>
    intro h
    obtain ⟨o, s⟩ := b
    by_cases hfit : sz ≤ s
    · refine ⟨(o, s), by simp, ?_, hfit⟩
      unfold allocate
      rw [if_pos hfit]
      split <;> rfl
    · have : ∃ b ∈ rest, sz ≤ b.2 := by
        obtain ⟨b, hb, hbs⟩ := h
        rcases List.mem_cons.mp hb with rfl | hbr
        · exact absurd hbs (by simpa using hfit)
        · exact ⟨b, hbr, hbs⟩
      obtain ⟨b, hb, hb1, hb2⟩ := ih this
      refine ⟨b, List.mem_cons_of_mem _ hb, ?_, hb2⟩
      unfold allocate
      rw [if_neg hfit]
      exact hb1

/-- There is always a first fit when there is a fit. -/
theorem exists_first_fit {sz : ℕ} :
    ∀ {fl : FreeList}, (∃ b ∈ fl, sz ≤ b.2) →
      ∃ i, i < fl.length ∧ sz ≤ (fl.getD i (0, 0)).2 ∧
        ∀ b ∈ fl.take i, b.2 < sz := by
  intro fl
  induction fl with
  | nil => simp
  | cons b rest ih =>
    intro h
    obtain ⟨o, s⟩ := b
    by_cases hfit : sz ≤ s
    · exact ⟨0, by simp, by simpa using hfit, by simp⟩
    · have : ∃ b ∈ rest, sz ≤ b.2 := by
        obtain ⟨b, hb, hbs⟩ := h
        rcases List.mem_cons.mp hb with rfl | hbr
        · exact absurd hbs (by simpa using hfit)
        · exact ⟨b, hbr, hbs⟩
      obtain ⟨i, hi, hfi, hba⟩ := ih this
      refine ⟨i + 1, by simpa using hi, by simpa using hfi, ?_⟩
      intro b hb
      rw [List.take_succ_cons] at hb
      rcases List.mem_cons.mp hb with rfl | hbr
      · omega
      · exact hba b hbr

/-- `allocate` preserves the invariants and representability, and every
resulting block is contained in the range of an original block. -/
theorem allocate_aux (sz : ℕ) :
    ∀ {fl : FreeList},
      List.Chain' (fun a b : Block => a.1 + a.2 < b.1) fl →
      (∀ b ∈ fl, 0 < b.2) → Bounded fl →
      List.Chain' (fun a b : Block => a.1 + a.2 < b.1) (allocate sz fl).2 ∧
        (∀ b ∈ (allocate sz fl).2, 0 < b.2) ∧ Bounded (allocate sz fl).2 ∧
        ∀ b' ∈ (allocate sz fl).2, ∃ b ∈ fl, b.1 ≤ b'.1 ∧ b'.1 + b'.2 ≤ b.1 + b.2 := by
  intro fl
  induction fl with
  | nil => intro _ _ _; exact ⟨by simp [allocate], by simp [allocate], by simp [allocate, Bounded], by simp [allocate]⟩
  | cons b rest ih =>
    intro h3 h4 hB
    obtain ⟨o, s⟩ := b
    have h3t := h3.tail
    have h4t : ∀ b ∈ rest, 0 < b.2 := fun b hb => h4 b (List.mem_cons_of_mem _ hb)
    have hBt : Bounded rest := fun b hb => hB b (List.mem_cons_of_mem _ hb)
    have hoM : o + s < M := by simpa using hB (o, s) (by simp)
    have hhead : ∀ y ∈ rest.head?, o + s < y.1 := (List.chain'_cons'.mp h3).1
    unfold allocate
    by_cases hfit : sz ≤ s
    · rw [if_pos hfit]
      by_cases hz : s - sz = 0
      · rw [if_pos hz]
        exact ⟨h3t, h4t, hBt, fun b' hb' => ⟨b', List.mem_cons_of_mem _ hb', le_refl _, le_refl _⟩⟩
      · rw [if_neg hz]
        have hmod : (o + sz) % M = o + sz := Nat.mod_eq_of_lt (by omega)
        simp only [hmod]
        refine ⟨?_, ?_, ?_, ?_⟩
        · refine List.chain'_cons'.mpr ⟨?_, h3t⟩
          intro y hy
          have := hhead y hy
          simp only
          omega
        · intro b hb
          rcases List.mem_cons.mp hb with rfl | hbr
          · simpa using by omega
          · exact h4t b hbr
        · intro b hb
          rcases List.mem_cons.mp hb with rfl | hbr
          · show o + sz + (s - sz) < M
            omega
          · exact hBt b hbr
        · intro b' hb'
          rcases List.mem_cons.mp hb' with rfl | hbr
          · exact ⟨(o, s), by simp, by show o ≤ o + sz; omega,
              by show o + sz + (s - sz) ≤ o + s; omega⟩
          · exact ⟨b', List.mem_cons_of_mem _ hbr, le_refl _, le_refl _⟩
    · rw [if_neg hfit]
      obtain ⟨i3, i4, iB, imem⟩ := ih h3t h4t hBt
      refine ⟨?_, ?_, ?_, ?_⟩
      · refine List.chain'_cons'.mpr ⟨?_, i3⟩
        intro y hy
        have hymem : y ∈ (allocate sz rest).2 := List.mem_of_mem_head? hy
        obtain ⟨b, hb, hb1, hb2⟩ := imem y hymem
        have : o + s < b.1 := by
          have hp := chain3_pairwise h3
          have := (List.pairwise_cons.mp hp).1 b hb
          simpa using this
        simp only
        omega
      · intro b hb
        rcases List.mem_cons.mp hb with rfl | hbr
        · simpa using h4 (o, s) (by simp)
        · exact i4 b hbr
      · intro b hb
        rcases List.mem_cons.mp hb with rfl | hbr
        · simpa using hB (o, s) (by simp)
        · exact iB b hbr
      · intro b' hb'
        rcases List.mem_cons.mp hb' with rfl | hbr
        · exact ⟨(o, s), by simp, le_refl _, le_refl _⟩
        · obtain ⟨b, hb, hb1, hb2⟩ := imem b' hbr
          exact ⟨b, List.mem_cons_of_mem _ hb, hb1, hb2⟩

/-! ## Lemmas: `deallocate` characterization -/

theorem set_eraseIdx_succ {α : Type _} {l : List α} {i : ℕ} (h : i + 1 < l.length)
    (y : α) :
    (l.set i y).eraseIdx (i + 1) = l.take i ++ y :: l.drop (i + 2) := by
  rw [List.set_eq_take_cons_drop y (by omega)]
  rw [List.eraseIdx_eq_take_drop_succ]
  have hlen : (l.take i).length = i := by
    rw [List.length_take]
    omega
  rw [List.take_append_eq_append_take, List.drop_append_eq_append_drop, hlen]
  rw [List.take_take]
  have h1 : min (i + 1) i = i := by omega
  have h2 : i + 1 - i = 1 := by omega
  have h3 : i + 1 + 1 - i = 2 := by omega
  rw [h1, h2, h3]
  rw [List.drop_eq_nil_of_le (le_of_eq_of_le hlen (by omega))]
  simp [List.drop_drop]

theorem sorted_offsets {fl : FreeList}
    (h1 : List.Chain' (fun a b : Block => a.1 < b.1) fl) :
    (fl.map Prod.fst).Sorted (· ≤ ·) := by
  have hc : List.Chain' (· < ·) (fl.map Prod.fst) :=
    (List.chain'_map Prod.fst).mpr h1
  have hp : List.Pairwise (· < ·) (fl.map Prod.fst) :=
    List.chain'_iff_pairwise.mp hc
  exact hp.imp le_of_lt

/-- Central characterization: on a store satisfying the invariants, the C++
`deallocate` body computes exactly the four-way case analysis described by
the spec (`deallocSpec`), with all machine arithmetic exact. -/
theorem deallocCore_eq_spec {offset sz : ℕ} {fl : FreeList} (hInv : Inv fl)
    (hB : Bounded fl) (hosz : offset + sz < M) (hne : fl ≠ []) :
    deallocCore offset sz fl = deallocSpec offset sz fl := by
  obtain ⟨h1, h2, h3, h4⟩ := hInv
  have hn : 0 < fl.length := List.length_pos.mpr hne
  have hidx : mini2 (fl.map Prod.fst) fl.length offset
      = lowerBound (fl.map Prod.fst) offset := by
    have hs := sorted_offsets h1
    have := @mini2_lowerBound (fl.map Prod.fst) offset hs
    rwa [List.length_map] at this
  have hLn : lowerBound (fl.map Prod.fst) offset ≤ fl.length := by
    have := lowerBound_le_length (fl.map Prod.fst) offset
    rwa [List.length_map] at this
  have hszM : sz < M := by omega
  have hoffM : offset < M := by omega
  simp only [deallocCore, deallocSpec, hidx]
  generalize hLg : lowerBound (fl.map Prod.fst) offset = L
  rw [hLg] at hLn
  by_cases hL0 : L = 0
  · simp only [if_pos hL0]
    have hfmem : fl.getD 0 (0, 0) ∈ fl := getD_mem hn
    have hfB : (fl.getD 0 (0, 0)).1 + (fl.getD 0 (0, 0)).2 < M := hB _ hfmem
    rw [Nat.mod_eq_of_lt hosz]
    by_cases hc : offset + sz = (fl.getD 0 (0, 0)).1
    · simp only [if_pos hc]
      have : ((fl.getD 0 (0, 0)).2 + sz) % M = (fl.getD 0 (0, 0)).2 + sz :=
        Nat.mod_eq_of_lt (by omega)
      rw [this]
    · simp only [if_neg hc]
  · simp only [if_neg hL0]
    by_cases hLe : L = fl.length
    · simp only [if_pos hLe]
      have hlm : fl.length - 1 < fl.length := by omega
      have hlmem : fl.getD (fl.length - 1) (0, 0) ∈ fl := getD_mem hlm
      have hlB : (fl.getD (fl.length - 1) (0, 0)).1 +
          (fl.getD (fl.length - 1) (0, 0)).2 < M := hB _ hlmem
      rw [Nat.mod_eq_of_lt hlB]
      by_cases hc : (fl.getD (fl.length - 1) (0, 0)).1 +
          (fl.getD (fl.length - 1) (0, 0)).2 = offset
      · simp only [if_pos hc]
        have hmod : ((fl.getD (fl.length - 1) (0, 0)).2 + sz) % M =
            (fl.getD (fl.length - 1) (0, 0)).2 + sz := Nat.mod_eq_of_lt (by omega)
        rw [hmod, List.set_eq_take_cons_drop _ hlm]
        have hd : fl.length - 1 + 1 = fl.length := by omega
        rw [hd, List.drop_length]
      · simp only [if_neg hc]
    · simp only [if_neg hLe]
      obtain ⟨k, rfl⟩ : ∃ k, L = k + 1 := ⟨L - 1, by omega⟩
      have hkn : k + 1 < fl.length := by omega
      have hkm : k < fl.length := by omega
      have hpmem : fl.getD (k + 1 - 1) (0, 0) ∈ fl := getD_mem (by omega)
      have hsmem : fl.getD (k + 1) (0, 0) ∈ fl := getD_mem hkn
      have hpB := hB _ hpmem
      have hsB := hB _ hsmem
      simp only [Nat.add_sub_cancel] at hpmem hpB ⊢
      rw [Nat.mod_eq_of_lt (hB _ hpmem)]
      by_cases hpc : (fl.getD k (0, 0)).1 + (fl.getD k (0, 0)).2 = offset
      · simp only [if_pos hpc]
        have e1 : ((fl.getD k (0, 0)).2 + sz) % M = (fl.getD k (0, 0)).2 + sz :=
          Nat.mod_eq_of_lt (by omega)
        rw [e1]
        have e2 : ((fl.getD k (0, 0)).1 + ((fl.getD k (0, 0)).2 + sz)) % M =
            offset + sz := by
          rw [show (fl.getD k (0, 0)).1 + ((fl.getD k (0, 0)).2 + sz) = offset + sz
            by omega]
          exact Nat.mod_eq_of_lt hosz
        rw [e2]
        by_cases hsc : (fl.getD (k + 1) (0, 0)).1 = offset + sz
        · simp only [if_pos hsc]
          have e3 : ((fl.getD k (0, 0)).2 + sz + (fl.getD (k + 1) (0, 0)).2) % M =
              (fl.getD k (0, 0)).2 + sz + (fl.getD (k + 1) (0, 0)).2 :=
            Nat.mod_eq_of_lt (by omega)
          rw [e3, set_eraseIdx_succ hkn]
        · simp only [if_neg hsc]
          rw [List.set_eq_take_cons_drop _ hkm]
      · simp only [if_neg hpc]
        rw [Nat.mod_eq_of_lt hosz]
        by_cases hsc : (fl.getD (k + 1) (0, 0)).1 = offset + sz
        · simp only [if_pos hsc]
          have e4 : sz % M = sz := Nat.mod_eq_of_lt hszM
          have e5 : ((fl.getD (k + 1) (0, 0)).1 + (M - sz)) % M = offset := by
            rw [show (fl.getD (k + 1) (0, 0)).1 + (M - sz) = offset + M by omega]
            rw [Nat.add_mod_right]
            exact Nat.mod_eq_of_lt hoffM
          have e6 : ((fl.getD (k + 1) (0, 0)).2 + sz) % M =
              (fl.getD (k + 1) (0, 0)).2 + sz := Nat.mod_eq_of_lt (by omega)
          rw [e4, e5, e6, List.set_eq_take_cons_drop _ hkn]
        · simp only [if_neg hsc]

/-! ## Lemmas: position of the freed range relative to the store -/

theorem getD_eq_getElem' {α : Type _} {l : List α} {i : ℕ} {d : α}
    (h : i < l.length) : l.getD i d = l[i] := by
  rw [List.getD_eq_getElem?_getD, List.getElem?_eq_getElem h]
  rfl

/-- Positional decomposition of a list around index `i`. -/
theorem decomp {α : Type _} {l : List α} {i : ℕ} {d : α} (h : i < l.length) :
    l = l.take i ++ l.getD i d :: l.drop (i + 1) := by
  have htelevise := List.take_append_drop i l
  rw [List.drop_eq_getElem_cons h] at htelevise
  rw [getD_eq_getElem' h]
  exact htelevise.symm

/-- Everything strictly before the lower-bound position has offset `< key`. -/
theorem take_lowerBound_lt :
    ∀ {fl : FreeList} {offset : ℕ},
      ∀ b ∈ fl.take (lowerBound (fl.map Prod.fst) offset), b.1 < offset := by
  intro fl
  induction fl with
  | nil => simp
  | cons hd rest ih =>
    intro offset b hb
    obtain ⟨o, s⟩ := hd
    simp only [List.map_cons, lowerBound] at hb
    split at hb
    · simp at hb
    · rw [List.take_succ_cons] at hb
      rcases List.mem_cons.mp hb with rfl | hbr
      · simpa using by omega
      · exact ih b hbr

/-- Everything from the lower-bound position on has offset `≥ key`
(requires sorted offsets). -/
theorem drop_lowerBound_ge :
    ∀ {fl : FreeList}, List.Chain' (fun a b : Block => a.1 < b.1) fl →
      ∀ {offset : ℕ},
      ∀ b ∈ fl.drop (lowerBound (fl.map Prod.fst) offset), offset ≤ b.1 := by
  intro fl
  induction fl with
  | nil => simp
  | cons hd rest ih =>
    intro h1 offset b hb
    obtain ⟨o, s⟩ := hd
    simp only [List.map_cons, lowerBound] at hb
    split at hb
    · rw [List.drop_zero] at hb
      rcases List.mem_cons.mp hb with rfl | hbr
      · simpa using by omega
      · have hp := chain1_pairwise h1
        have := (List.pairwise_cons.mp hp).1 b hbr
        simp only at this
        omega
    · rw [List.drop_succ_cons] at hb
      exact ih h1.tail b hb

/-- With the disjointness precondition, blocks before the insertion point end
at or before the freed range. -/
theorem gap_take {fl : FreeList} {offset sz : ℕ}
    (hdisj : DisjointFrom fl offset sz) :
    ∀ b ∈ fl.take (lowerBound (fl.map Prod.fst) offset),
      b.1 < offset ∧ b.1 + b.2 ≤ offset := by
  intro b hb
  have h1 := take_lowerBound_lt b hb
  have h2 := hdisj b (List.take_subset _ _ hb)
  exact ⟨h1, by omega⟩

/-- With disjointness and positive sizes, blocks from the insertion point on
start at or after the freed range's end. -/
theorem gap_drop {fl : FreeList} {offset sz : ℕ}
    (h1 : List.Chain' (fun a b : Block => a.1 < b.1) fl)
    (h4 : ∀ b ∈ fl, 0 < b.2) (hdisj : DisjointFrom fl offset sz) :
    ∀ b ∈ fl.drop (lowerBound (fl.map Prod.fst) offset),
      offset ≤ b.1 ∧ offset + sz ≤ b.1 := by
  intro b hb
  have hge := drop_lowerBound_ge h1 b hb
  have hmem := List.drop_subset _ _ hb
  have hd := hdisj b hmem
  have hp := h4 b hmem
  exact ⟨hge, by omega⟩

theorem getLast?_eq_getD {l : FreeList} (h : 0 < l.length) :
    l.getLast? = some (l.getD (l.length - 1) (0, 0)) := by
  rw [List.getLast?_eq_getElem?, List.getElem?_eq_getElem (by omega),
    getD_eq_getElem' (by omega)]

theorem drop_succ_getD {l : FreeList} {i : ℕ} (h : i < l.length) :
    l.drop i = l.getD i (0, 0) :: l.drop (i + 1) := by
  rw [List.drop_eq_getElem_cons h, getD_eq_getElem' h]

theorem take_succ_getD {l : FreeList} {i : ℕ} (h : i < l.length) :
    l.take (i + 1) = l.take i ++ [l.getD i (0, 0)] := by
  rw [List.take_succ, List.getElem?_eq_getElem h, getD_eq_getElem' h]
  rfl

theorem getD_mem_take {l : FreeList} {i j : ℕ} (hij : i < j) (hi : i < l.length) :
    l.getD i (0, 0) ∈ l.take j := by
  have hlen : i < (l.take j).length := by
    rw [List.length_take]
    omega
  rw [getD_eq_getElem' hi, List.getElem_take' l hi hij]
  exact List.getElem_mem hlen

/-- `deallocSpec` preserves non-adjacency and size positivity (hence all four
invariants) whenever the freed range is a positive-size range disjoint from
the store. -/
theorem deallocSpec_inv {offset sz : ℕ} {fl : FreeList} (hInv : Inv fl)
    (hne : fl ≠ []) (hsz : 0 < sz) (hdisj : DisjointFrom fl offset sz) :
    Inv (deallocSpec offset sz fl) := by
  rw [Inv_iff] at hInv ⊢
  obtain ⟨h3, h4⟩ := hInv
  have h1 : List.Chain' (fun a b : Block => a.1 < b.1) fl :=
    h3.imp fun a b hab => by omega
  have hn : 0 < fl.length := List.length_pos.mpr hne
  have hLn : lowerBound (fl.map Prod.fst) offset ≤ fl.length := by
    have := lowerBound_le_length (fl.map Prod.fst) offset
    rwa [List.length_map] at this
  have hgt := gap_take hdisj
  have hgd := gap_drop h1 h4 hdisj
  simp only [deallocSpec]
  generalize hLg : lowerBound (fl.map Prod.fst) offset = L
  rw [hLg] at hLn hgt hgd
  by_cases hL0 : L = 0
  · subst hL0
    rw [if_pos rfl]
    rcases fl with _ | ⟨f, tail⟩
    · exact absurd rfl hne
    · simp only [List.getD_cons_zero, List.tail_cons]
      obtain ⟨hlink, htail⟩ := List.chain'_cons'.mp h3
      by_cases hc : offset + sz = f.1
      · rw [if_pos hc]
        constructor
        · refine List.chain'_cons'.mpr ⟨?_, htail⟩
          intro y hy
          have := hlink y hy
          show offset + (f.2 + sz) < y.1
          omega
        · intro b hb
          rcases List.mem_cons.mp hb with rfl | hbr
          · show 0 < f.2 + sz
            omega
          · exact h4 b (List.mem_cons_of_mem _ hbr)
      · rw [if_neg hc]
        have hgap := hgd f (by simp [List.drop_zero])
        constructor
        · refine List.chain'_cons'.mpr ⟨?_, h3⟩
          intro y hy
          simp only [List.head?_cons, Option.mem_some_iff] at hy
          subst hy
          show offset + sz < f.1
          omega
        · intro b hb
          rcases List.mem_cons.mp hb with rfl | hbr
          · exact hsz
          · exact h4 b hbr
  · rw [if_neg hL0]
    by_cases hLe : L = fl.length
    · rw [if_pos hLe]
      subst hLe
      have hlm : fl.length - 1 < fl.length := by omega
      have hdec : fl = fl.take (fl.length - 1) ++
          fl.getD (fl.length - 1) (0, 0) :: fl.drop (fl.length - 1 + 1) :=
        decomp hlm
      have hdrop : fl.drop (fl.length - 1 + 1) = [] := by
        rw [show fl.length - 1 + 1 = fl.length by omega]
        exact List.drop_length fl
      rw [hdrop] at hdec
      have h3' := h3
      rw [hdec] at h3'
      obtain ⟨hcT, hcS, hlink⟩ := List.chain'_append.mp h3'
      by_cases hc : (fl.getD (fl.length - 1) (0, 0)).1 +
          (fl.getD (fl.length - 1) (0, 0)).2 = offset
      · rw [if_pos hc]
        constructor
        · refine List.chain'_append.mpr ⟨hcT, by simp, ?_⟩
          intro x hx y hy
          simp only [List.head?_cons, Option.mem_some_iff] at hy
          subst hy
          have := hlink x hx (fl.getD (fl.length - 1) (0, 0)) (by simp)
          show x.1 + x.2 < (fl.getD (fl.length - 1) (0, 0)).1
          omega
        · intro b hb
          rcases List.mem_append.mp hb with hbT | hbS
          · exact h4 b (List.take_subset _ _ hbT)
          · have hmem := h4 (fl.getD (fl.length - 1) (0, 0)) (getD_mem hlm)
            simp only [List.mem_singleton] at hbS
            subst hbS
            show 0 < (fl.getD (fl.length - 1) (0, 0)).2 + sz
            omega
      · rw [if_neg hc]
        constructor
        · refine List.chain'_append.mpr ⟨h3, by simp, ?_⟩
          intro x hx y hy
          simp only [List.head?_cons, Option.mem_some_iff] at hy
          subst hy
          rw [getLast?_eq_getD hn, Option.mem_some_iff] at hx
          subst hx
          have hmem : fl.getD (fl.length - 1) (0, 0) ∈ fl.take fl.length := by
            rw [List.take_length]
            exact getD_mem hlm
          have := hgt _ hmem
          show (fl.getD (fl.length - 1) (0, 0)).1 +
            (fl.getD (fl.length - 1) (0, 0)).2 < offset
          omega
        · intro b hb
          rcases List.mem_append.mp hb with hbT | hbS
          · exact h4 b hbT
          · simp only [List.mem_singleton] at hbS
            subst hbS
            exact hsz
    · rw [if_neg hLe]
      obtain ⟨k, rfl⟩ : ∃ k, L = k + 1 := ⟨L - 1, by omega⟩
      have hkn : k + 1 < fl.length := by omega
      have hkm : k < fl.length := by omega
      simp only [Nat.add_sub_cancel]
      have hdec : fl = fl.take k ++ fl.getD k (0, 0) ::
          fl.getD (k + 1) (0, 0) :: fl.drop (k + 2) := by
        have h0 := @decomp _ _ _ (0, 0) hkm
        rw [drop_succ_getD hkn] at h0
        exact h0
      have h3' := h3
      rw [hdec] at h3'
      obtain ⟨hcT, hcPS, hlinkT⟩ := List.chain'_append.mp h3'
      obtain ⟨hlinkPS, hcS⟩ := List.chain'_cons'.mp hcPS
      obtain ⟨hlinkSD, hcD⟩ := List.chain'_cons'.mp hcS
      have hRps : (fl.getD k (0, 0)).1 + (fl.getD k (0, 0)).2 <
          (fl.getD (k + 1) (0, 0)).1 := hlinkPS _ (by simp)
      have hpgap := hgt _ (getD_mem_take (by omega) hkm)
      have hsgap : offset ≤ (fl.getD (k + 1) (0, 0)).1 ∧
          offset + sz ≤ (fl.getD (k + 1) (0, 0)).1 := by
        refine hgd _ ?_
        rw [drop_succ_getD hkn]
        simp
      have hppos := h4 (fl.getD k (0, 0)) (getD_mem hkm)
      have hspos := h4 (fl.getD (k + 1) (0, 0)) (getD_mem hkn)
      by_cases hpc : (fl.getD k (0, 0)).1 + (fl.getD k (0, 0)).2 = offset
      · rw [if_pos hpc]
        by_cases hsc : (fl.getD (k + 1) (0, 0)).1 = offset + sz
        · rw [if_pos hsc]
          constructor
          · refine List.chain'_append.mpr ⟨hcT, ?_, ?_⟩
            · refine List.chain'_cons'.mpr ⟨?_, hcD⟩
              intro y hy
              have := hlinkSD y hy
              show (fl.getD k (0, 0)).1 +
                ((fl.getD k (0, 0)).2 + sz + (fl.getD (k + 1) (0, 0)).2) < y.1
              omega
            · intro x hx y hy
              simp only [List.head?_cons, Option.mem_some_iff] at hy
              subst hy
              have := hlinkT x hx (fl.getD k (0, 0)) (by simp)
              show x.1 + x.2 < (fl.getD k (0, 0)).1
              omega
          · intro b hb
            rcases List.mem_append.mp hb with hbT | hbS
            · exact h4 b (List.take_subset _ _ hbT)
            · rcases List.mem_cons.mp hbS with rfl | hbD
              · show 0 < (fl.getD k (0, 0)).2 + sz + (fl.getD (k + 1) (0, 0)).2
                omega
              · exact h4 b (List.drop_subset _ _ hbD)
        · rw [if_neg hsc]
          constructor
          · refine List.chain'_append.mpr ⟨hcT, ?_, ?_⟩
            · rw [drop_succ_getD hkn]
              refine List.chain'_cons'.mpr ⟨?_, hcS⟩
              intro y hy
              simp only [List.head?_cons, Option.mem_some_iff] at hy
              subst hy
              show (fl.getD k (0, 0)).1 + ((fl.getD k (0, 0)).2 + sz) <
                (fl.getD (k + 1) (0, 0)).1
              omega
            · intro x hx y hy
              simp only [List.head?_cons, Option.mem_some_iff] at hy
              subst hy
              have := hlinkT x hx (fl.getD k (0, 0)) (by simp)
              show x.1 + x.2 < (fl.getD k (0, 0)).1
              omega
          · intro b hb
            rcases List.mem_append.mp hb with hbT | hbS
            · exact h4 b (List.take_subset _ _ hbT)
            · rcases List.mem_cons.mp hbS with rfl | hbD
              · show 0 < (fl.getD k (0, 0)).2 + sz
                omega
              · exact h4 b (List.drop_subset _ _ hbD)
      · rw [if_neg hpc]
        have htk : fl.take (k + 1) = fl.take k ++ [fl.getD k (0, 0)] :=
          take_succ_getD hkm
        have hck1 : List.Chain' (fun a b : Block => a.1 + a.2 < b.1)
            (fl.take (k + 1)) := by
          rw [htk]
          refine List.chain'_append.mpr ⟨hcT, by simp, ?_⟩
          intro x hx y hy
          simp only [List.head?_cons, Option.mem_some_iff] at hy
          subst hy
          exact hlinkT x hx _ (by simp)
        have hlast : ∀ x ∈ (fl.take (k + 1)).getLast?, x = fl.getD k (0, 0) := by
          intro x hx
          rw [htk, List.getLast?_concat, Option.mem_some_iff] at hx
          exact hx.symm
        by_cases hsc : (fl.getD (k + 1) (0, 0)).1 = offset + sz
        · rw [if_pos hsc]
          constructor
          · refine List.chain'_append.mpr ⟨hck1, ?_, ?_⟩
            · refine List.chain'_cons'.mpr ⟨?_, hcD⟩
              intro y hy
              have := hlinkSD y hy
              show offset + ((fl.getD (k + 1) (0, 0)).2 + sz) < y.1
              omega
            · intro x hx y hy
              simp only [List.head?_cons, Option.mem_some_iff] at hy
              subst hy
              have hx' := hlast x hx
              subst hx'
              show (fl.getD k (0, 0)).1 + (fl.getD k (0, 0)).2 < offset
              omega
          · intro b hb
            rcases List.mem_append.mp hb with hbT | hbS
            · exact h4 b (List.take_subset _ _ hbT)
            · rcases List.mem_cons.mp hbS with rfl | hbD
              · show 0 < (fl.getD (k + 1) (0, 0)).2 + sz
                omega
              · exact h4 b (List.drop_subset _ _ hbD)
        · rw [if_neg hsc]
          constructor
          · refine List.chain'_append.mpr ⟨hck1, ?_, ?_⟩
            · refine List.chain'_cons'.mpr ⟨?_, ?_⟩
              · intro y hy
                rw [drop_succ_getD hkn] at hy
                simp only [List.head?_cons, Option.mem_some_iff] at hy
                subst hy
                show offset + sz < (fl.getD (k + 1) (0, 0)).1
                omega
              · rw [drop_succ_getD hkn]
                exact hcS
            · intro x hx y hy
              simp only [List.head?_cons, Option.mem_some_iff] at hy
              subst hy
              have hx' := hlast x hx
              subst hx'
              show (fl.getD k (0, 0)).1 + (fl.getD k (0, 0)).2 < offset
              omega
          · intro b hb
            rcases List.mem_append.mp hb with hbT | hbS
            · exact h4 b (List.take_subset _ _ hbT)
            · rcases List.mem_cons.mp hbS with rfl | hbD
              · exact hsz
              · exact h4 b (List.drop_subset _ _ hbD)

/-! ## Positional helpers for evaluating `deallocSpec` on modified stores -/

theorem getD_append_left {A B : FreeList} {j : ℕ} {d : Block} (h : j < A.length) :
    (A ++ B).getD j d = A.getD j d := by
  induction A generalizing j with
  | nil => simp at h
  | cons a A' ih =>
    cases j with
    | zero => simp
    | succ j' => simpa using ih (by simpa using h)

theorem getD_append_len {A B : FreeList} {x d : Block} :
    (A ++ x :: B).getD A.length d = x := by
  induction A with
  | nil => simp
  | cons a A' ih => simpa using ih

theorem getD_take {l : FreeList} {i j : ℕ} {d : Block} (hij : j < i)
    (hj : j < l.length) : (l.take i).getD j d = l.getD j d := by
  rw [getD_eq_getElem' (by rw [List.length_take]; omega), getD_eq_getElem' hj]
  exact (List.getElem_take' l hj hij).symm

theorem drop_append_cons {A B : FreeList} {x : Block} :
    (A ++ x :: B).drop (A.length + 1) = B := by
  have : A ++ x :: B = (A ++ [x]) ++ B := by simp
  rw [this]
  exact List.drop_left' (by simp)

theorem getD_append_len' {A B : FreeList} {x d : Block} {i : ℕ}
    (h : A.length = i) : (A ++ x :: B).getD i d = x := by
  subst h
  exact getD_append_len

theorem drop_append_cons' {A B : FreeList} {x : Block} {i : ℕ}
    (h : A.length = i) : (A ++ x :: B).drop (i + 1) = B := by
  subst h
  exact drop_append_cons

/-- Lower bound of a concatenation whose first part is entirely below the key
and whose second part starts at or above it. -/
theorem lowerBound_append {A B : List ℕ} {key : ℕ} (hA : ∀ x ∈ A, x < key)
    (hB : ∀ x ∈ B.head?, key ≤ x) : lowerBound (A ++ B) key = A.length := by
  induction A with
  | nil =>
    cases B with
    | nil => rfl
    | cons b B' =>
      have := hB b (by simp)
      simp [lowerBound, this]
  | cons a A' ih =>
    have ha : a < key := hA a (by simp)
    simp only [List.cons_append, lowerBound, if_neg (by omega : ¬ key ≤ a)]
    show lowerBound (A' ++ B) key + 1 = (a :: A').length
    rw [ih fun x hx => hA x (List.mem_cons_of_mem _ hx)]
    simp

/-- Pairwise consequences of the non-adjacency chain around position `i`:
every earlier block ends strictly before block `i`, and block `i` ends
strictly before every later block. -/
theorem pairwise_decomp {fl : FreeList}
    (h3 : List.Chain' (fun a b : Block => a.1 + a.2 < b.1) fl) {i : ℕ}
    (hi : i < fl.length) :
    (∀ b ∈ fl.take i, b.1 + b.2 < (fl.getD i (0, 0)).1) ∧
      ∀ b ∈ fl.drop (i + 1), (fl.getD i (0, 0)).1 + (fl.getD i (0, 0)).2 < b.1 := by
  have hp := chain3_pairwise h3
  rw [@decomp _ _ _ (0, 0) hi] at hp
  obtain ⟨hpA, hAB⟩ := List.pairwise_append.mp hp
  obtain ⟨hpB, hrest⟩ := hAB
  constructor
  · intro b hb
    exact hrest b hb _ (by simp)
  · intro b hb
    exact (List.pairwise_cons.mp hpB).1 b hb

/-! ## Round-trip lemmas -/

/-- Freeing a range carved from the start of block `i` (which stayed behind
with a smaller size) restores the original store. -/
theorem roundtrip_set {fl : FreeList} {sz i : ℕ} (hInv : Inv fl) (hB : Bounded fl)
    (hi : i < fl.length) (hlt : sz < (fl.getD i (0, 0)).2) :
    deallocCore (fl.getD i (0, 0)).1 sz
        (fl.set i ((fl.getD i (0, 0)).1 + sz, (fl.getD i (0, 0)).2 - sz)) = fl := by
  obtain ⟨h3, h4⟩ := (Inv_iff fl).mp hInv
  obtain ⟨hT, hD⟩ := pairwise_decomp h3 hi
  have hpB : (fl.getD i (0, 0)).1 + (fl.getD i (0, 0)).2 < M :=
    hB _ (getD_mem hi)
  have hAlen : (fl.take i).length = i := by
    rw [List.length_take]
    omega
  have hdec := @decomp _ _ _ (0, 0) hi
  have h3d := h3
  rw [hdec] at h3d
  obtain ⟨hcT, hcPD, hlinkT⟩ := List.chain'_append.mp h3d
  obtain ⟨hlinkPD, hcD⟩ := List.chain'_cons'.mp hcPD
  have hset : fl.set i ((fl.getD i (0, 0)).1 + sz, (fl.getD i (0, 0)).2 - sz) =
      fl.take i ++ ((fl.getD i (0, 0)).1 + sz, (fl.getD i (0, 0)).2 - sz) ::
        fl.drop (i + 1) :=
    List.set_eq_take_cons_drop _ hi
  rw [hset]
  have h3' : List.Chain' (fun a b : Block => a.1 + a.2 < b.1)
      (fl.take i ++ ((fl.getD i (0, 0)).1 + sz, (fl.getD i (0, 0)).2 - sz) ::
        fl.drop (i + 1)) := by
    refine List.chain'_append.mpr ⟨hcT, ?_, ?_⟩
    · refine List.chain'_cons'.mpr ⟨?_, hcD⟩
      intro y hy
      have := hlinkPD y hy
      show (fl.getD i (0, 0)).1 + sz + ((fl.getD i (0, 0)).2 - sz) < y.1
      omega
    · intro x hx y hy
      simp only [List.head?_cons, Option.mem_some_iff] at hy
      subst hy
      have := hlinkT x hx (fl.getD i (0, 0)) (by simp)
      show x.1 + x.2 < (fl.getD i (0, 0)).1 + sz
      omega
  have h4' : ∀ b ∈ fl.take i ++ ((fl.getD i (0, 0)).1 + sz,
      (fl.getD i (0, 0)).2 - sz) :: fl.drop (i + 1), 0 < b.2 := by
    intro b hb
    rcases List.mem_append.mp hb with hbT | hbS
    · exact h4 b (List.take_subset _ _ hbT)
    · rcases List.mem_cons.mp hbS with rfl | hbD
      · show 0 < (fl.getD i (0, 0)).2 - sz
        omega
      · exact h4 b (List.drop_subset _ _ hbD)
  have hB' : Bounded (fl.take i ++ ((fl.getD i (0, 0)).1 + sz,
      (fl.getD i (0, 0)).2 - sz) :: fl.drop (i + 1)) := by
    intro b hb
    rcases List.mem_append.mp hb with hbT | hbS
    · exact hB b (List.take_subset _ _ hbT)
    · rcases List.mem_cons.mp hbS with rfl | hbD
      · show (fl.getD i (0, 0)).1 + sz + ((fl.getD i (0, 0)).2 - sz) < M
        omega
      · exact hB b (List.drop_subset _ _ hbD)
  rw [deallocCore_eq_spec ((Inv_iff _).mpr ⟨h3', h4'⟩) hB' (by omega)
    (by simp)]
  have hLB : lowerBound ((fl.take i ++ ((fl.getD i (0, 0)).1 + sz,
      (fl.getD i (0, 0)).2 - sz) :: fl.drop (i + 1)).map Prod.fst)
      (fl.getD i (0, 0)).1 = i := by
    rw [List.map_append, List.map_cons]
    rw [lowerBound_append]
    · rw [List.length_map, List.length_take]
      omega
    · intro x hx
      obtain ⟨b, hbmem, rfl⟩ := List.mem_map.mp hx
      have := hT b hbmem
      omega
    · intro x hx
      simp only [List.head?_cons, Option.mem_some_iff] at hx
      subst hx
      show (fl.getD i (0, 0)).1 ≤ (fl.getD i (0, 0)).1 + sz
      omega
  simp only [deallocSpec, hLB]
  by_cases hi0 : i = 0
  · subst hi0
    rw [if_pos rfl]
    simp only [List.take_zero, List.nil_append, List.getD_cons_zero,
      List.tail_cons]
    show ((fl.getD 0 (0, 0)).1, (fl.getD 0 (0, 0)).2 - sz + sz) ::
      fl.drop (0 + 1) = fl
    rw [show (fl.getD 0 (0, 0)).2 - sz + sz = (fl.getD 0 (0, 0)).2 by omega]
    rw [Prod.mk.eta]
    have hthis := hdec
    simp only [List.take_zero, List.nil_append] at hthis
    exact hthis.symm
  · rw [if_neg hi0]
    have hlen' : (fl.take i ++ ((fl.getD i (0, 0)).1 + sz,
        (fl.getD i (0, 0)).2 - sz) :: fl.drop (i + 1)).length = fl.length := by
      conv_rhs => rw [hdec]
      simp
    rw [if_neg (by omega : ¬ i = (fl.take i ++ ((fl.getD i (0, 0)).1 + sz,
      (fl.getD i (0, 0)).2 - sz) :: fl.drop (i + 1)).length)]
    have e1 : (fl.take i ++ ((fl.getD i (0, 0)).1 + sz,
        (fl.getD i (0, 0)).2 - sz) :: fl.drop (i + 1)).getD (i - 1) (0, 0) =
        fl.getD (i - 1) (0, 0) := by
      rw [getD_append_left (by omega)]
      exact getD_take (by omega) (by omega)
    have hpred := hT (fl.getD (i - 1) (0, 0)) (getD_mem_take (by omega) (by omega))
    rw [e1]
    rw [if_neg (by omega : ¬ (fl.getD (i - 1) (0, 0)).1 +
      (fl.getD (i - 1) (0, 0)).2 = (fl.getD i (0, 0)).1)]
    have e2 : (fl.take i ++ ((fl.getD i (0, 0)).1 + sz,
        (fl.getD i (0, 0)).2 - sz) :: fl.drop (i + 1)).getD i (0, 0) =
        ((fl.getD i (0, 0)).1 + sz, (fl.getD i (0, 0)).2 - sz) :=
      getD_append_len' hAlen
    rw [e2]
    rw [if_pos (show ((fl.getD i (0, 0)).1 + sz, (fl.getD i (0, 0)).2 - sz).1 =
      (fl.getD i (0, 0)).1 + sz from rfl)]
    have e3 : (fl.take i ++ ((fl.getD i (0, 0)).1 + sz,
        (fl.getD i (0, 0)).2 - sz) :: fl.drop (i + 1)).take i = fl.take i :=
      List.take_left' hAlen
    have e4 : (fl.take i ++ ((fl.getD i (0, 0)).1 + sz,
        (fl.getD i (0, 0)).2 - sz) :: fl.drop (i + 1)).drop (i + 1) =
        fl.drop (i + 1) :=
      drop_append_cons' hAlen
    rw [e3, e4]
    show fl.take i ++ ((fl.getD i (0, 0)).1, (fl.getD i (0, 0)).2 - sz + sz) ::
      fl.drop (i + 1) = fl
    rw [show (fl.getD i (0, 0)).2 - sz + sz = (fl.getD i (0, 0)).2 by omega]
    rw [Prod.mk.eta]
    exact hdec.symm

/-- Freeing the full range of block `i` right after `allocate` erased it
restores the original store. -/
theorem roundtrip_erase {fl : FreeList} {i : ℕ} (hInv : Inv fl) (hB : Bounded fl)
    (hi : i < fl.length) (hne' : fl.eraseIdx i ≠ []) :
    deallocCore (fl.getD i (0, 0)).1 (fl.getD i (0, 0)).2 (fl.eraseIdx i) = fl := by
  obtain ⟨h3, h4⟩ := (Inv_iff fl).mp hInv
  obtain ⟨hT, hD⟩ := pairwise_decomp h3 hi
  have hpB : (fl.getD i (0, 0)).1 + (fl.getD i (0, 0)).2 < M :=
    hB _ (getD_mem hi)
  have hppos : 0 < (fl.getD i (0, 0)).2 := h4 _ (getD_mem hi)
  have hAlen : (fl.take i).length = i := by
    rw [List.length_take]
    omega
  have hdec := @decomp _ _ _ (0, 0) hi
  have h3d := h3
  rw [hdec] at h3d
  obtain ⟨hcT, hcPD, hlinkT⟩ := List.chain'_append.mp h3d
  obtain ⟨hlinkPD, hcD⟩ := List.chain'_cons'.mp hcPD
  have herase : fl.eraseIdx i = fl.take i ++ fl.drop (i + 1) :=
    List.eraseIdx_eq_take_drop_succ ..
  rw [herase] at hne' ⊢
  have h3' : List.Chain' (fun a b : Block => a.1 + a.2 < b.1)
      (fl.take i ++ fl.drop (i + 1)) := by
    refine List.chain'_append.mpr ⟨hcT, hcD, ?_⟩
    intro x hx y hy
    have h1x := hlinkT x hx (fl.getD i (0, 0)) (by simp)
    have h2y := hlinkPD y hy
    omega
  have h4' : ∀ b ∈ fl.take i ++ fl.drop (i + 1), 0 < b.2 := by
    intro b hb
    rcases List.mem_append.mp hb with hbT | hbD
    · exact h4 b (List.take_subset _ _ hbT)
    · exact h4 b (List.drop_subset _ _ hbD)
  have hB' : Bounded (fl.take i ++ fl.drop (i + 1)) := by
    intro b hb
    rcases List.mem_append.mp hb with hbT | hbD
    · exact hB b (List.take_subset _ _ hbT)
    · exact hB b (List.drop_subset _ _ hbD)
  rw [deallocCore_eq_spec ((Inv_iff _).mpr ⟨h3', h4'⟩) hB' (by omega) hne']
  have hLB : lowerBound ((fl.take i ++ fl.drop (i + 1)).map Prod.fst)
      (fl.getD i (0, 0)).1 = i := by
    rw [List.map_append]
    rw [lowerBound_append]
    · rw [List.length_map, List.length_take]
      omega
    · intro x hx
      obtain ⟨b, hbmem, rfl⟩ := List.mem_map.mp hx
      have := hT b hbmem
      omega
    · intro x hx
      rw [List.head?_map] at hx
      cases hd2 : (fl.drop (i + 1)).head? with
      | none => rw [hd2] at hx; simp at hx
      | some b =>
        rw [hd2] at hx
        simp only [Option.map_some', Option.mem_some_iff] at hx
        subst hx
        have := hlinkPD b (by rw [hd2]; rfl)
        omega
  simp only [deallocSpec, hLB]
  by_cases hi0 : i = 0
  · subst hi0
    rw [if_pos rfl]
    simp only [List.take_zero, List.nil_append]
    have h1n : 1 < fl.length := by
      rcases Nat.lt_or_ge 1 fl.length with h | h
      · exact h
      · exfalso
        apply hne'
        simp only [List.take_zero, List.nil_append]
        rw [List.drop_eq_nil_of_le (by omega)]
    rw [drop_succ_getD (show 0 + 1 < fl.length by omega)]
    simp only [List.getD_cons_zero, List.tail_cons]
    have hq := hD (fl.getD (0 + 1) (0, 0)) (by
      rw [drop_succ_getD (show 0 + 1 < fl.length by omega)]
      simp)
    rw [if_neg (by omega : ¬ (fl.getD 0 (0, 0)).1 + (fl.getD 0 (0, 0)).2 =
      (fl.getD (0 + 1) (0, 0)).1)]
    rw [← drop_succ_getD (show 0 + 1 < fl.length by omega)]
    rw [Prod.mk.eta]
    have hthis := hdec
    simp only [List.take_zero, List.nil_append] at hthis
    exact hthis.symm
  · rw [if_neg hi0]
    by_cases hDnil : fl.drop (i + 1) = []
    · have hin : i = (fl.take i ++ fl.drop (i + 1)).length := by
        rw [hDnil]
        simp [hAlen]
      rw [if_pos hin]
      rw [hDnil]
      simp only [List.append_nil]
      have egetd : (fl.take i).getD ((fl.take i).length - 1) (0, 0) =
          fl.getD (i - 1) (0, 0) := by
        rw [hAlen]
        exact getD_take (by omega) (by omega)
      rw [egetd]
      have hpred := hT (fl.getD (i - 1) (0, 0)) (getD_mem_take (by omega) (by omega))
      rw [if_neg (by omega : ¬ (fl.getD (i - 1) (0, 0)).1 +
        (fl.getD (i - 1) (0, 0)).2 = (fl.getD i (0, 0)).1)]
      rw [Prod.mk.eta]
      conv_rhs => rw [hdec, hDnil]
    · rw [if_neg (by
        intro hcon
        apply hDnil
        have : (fl.take i ++ fl.drop (i + 1)).length =
            i + (fl.drop (i + 1)).length := by
          rw [List.length_append, hAlen]
        rw [← hcon] at this
        have hzero : (fl.drop (i + 1)).length = 0 := by omega
        exact List.length_eq_zero.mp hzero)]
      have hi1n : i + 1 < fl.length := by
        rcases Nat.lt_or_ge (i + 1) fl.length with h | h
        · exact h
        · exact absurd (List.drop_eq_nil_of_le (by omega)) hDnil
      have e1 : (fl.take i ++ fl.drop (i + 1)).getD (i - 1) (0, 0) =
          fl.getD (i - 1) (0, 0) := by
        rw [getD_append_left (by omega)]
        exact getD_take (by omega) (by omega)
      rw [e1]
      have hpred := hT (fl.getD (i - 1) (0, 0)) (getD_mem_take (by omega) (by omega))
      rw [if_neg (by omega : ¬ (fl.getD (i - 1) (0, 0)).1 +
        (fl.getD (i - 1) (0, 0)).2 = (fl.getD i (0, 0)).1)]
      rw [drop_succ_getD hi1n]
      have e2 : (fl.take i ++ fl.getD (i + 1) (0, 0) :: fl.drop (i + 1 + 1)).getD
          i (0, 0) = fl.getD (i + 1) (0, 0) := getD_append_len' hAlen
      rw [e2]
      have hq := hD (fl.getD (i + 1) (0, 0)) (by
        rw [drop_succ_getD hi1n]
        simp)
      rw [if_neg (by omega : ¬ (fl.getD (i + 1) (0, 0)).1 =
        (fl.getD i (0, 0)).1 + (fl.getD i (0, 0)).2)]
      rw [List.take_left' hAlen, List.drop_left' hAlen]
      rw [← drop_succ_getD hi1n, Prod.mk.eta]
      exact hdec.symm

/-- Round-trip: a successful allocation immediately undone by `deallocate`
with the returned offset and the same size restores the store, provided the
store did not become empty in between (`deallocate`'s precondition). -/
theorem roundtrip {fl : FreeList} {sz : ℕ} (hInv : Inv fl) (hB : Bounded fl)
    (hsucc : (allocate sz fl).1 ≠ sentinel) (hne' : (allocate sz fl).2 ≠ []) :
    deallocate (allocate sz fl).1 sz (allocate sz fl).2 = some fl := by
  have hfit : ∃ b ∈ fl, sz ≤ b.2 := by
    by_contra hcon
    push_neg at hcon
    rw [allocate_no_fit (fun b hb => by have := hcon b hb; omega)] at hsucc
    exact hsucc rfl
  obtain ⟨i, hi, hfiti, hfirsti⟩ := exists_first_fit hfit
  have halloc := allocate_first_fit hB hi hfiti hfirsti
  by_cases hz : (fl.getD i (0, 0)).2 - sz = 0
  · rw [halloc] at hne' ⊢
    simp only [if_pos hz] at hne' ⊢
    have hne'' : fl.eraseIdx i ≠ [] := hne'
    have hsz_eq : sz = (fl.getD i (0, 0)).2 := by omega
    show deallocate (fl.getD i (0, 0)).1 sz (fl.eraseIdx i) = some fl
    rw [hsz_eq]
    simp only [deallocate, if_neg hne'']
    exact congrArg some (roundtrip_erase hInv hB hi hne'')
  · rw [halloc]
    simp only [if_neg hz]
    have hlt : sz < (fl.getD i (0, 0)).2 := by omega
    have hne'' : fl.set i ((fl.getD i (0, 0)).1 + sz,
        (fl.getD i (0, 0)).2 - sz) ≠ [] := by
      intro hcon
      have := congrArg List.length hcon
      simp only [List.length_set, List.length_nil] at this
      omega
    show deallocate (fl.getD i (0, 0)).1 sz
      (fl.set i ((fl.getD i (0, 0)).1 + sz, (fl.getD i (0, 0)).2 - sz)) = some fl
    simp only [deallocate, if_neg hne'']
    exact congrArg some (roundtrip_set hInv hB hi hlt)

/-! ## Conservation lemmas -/

theorem sentinel_lt_M : sentinel < M := by
  unfold sentinel M
  norm_num

theorem sumSizes_cons (b : Block) (l : FreeList) :
    sumSizes (b :: l) = b.2 + sumSizes l := by
  simp [sumSizes]

theorem sumSizes_append (A B : FreeList) :
    sumSizes (A ++ B) = sumSizes A + sumSizes B := by
  simp [sumSizes]

/-- A successful first-fit allocation removes exactly the requested size from
the free total. -/
theorem allocate_sum_fit {sz : ℕ} :
    ∀ {fl : FreeList}, (∃ b ∈ fl, sz ≤ b.2) →
      sumSizes (allocate sz fl).2 + sz = sumSizes fl := by
  intro fl
  induction fl with
  | nil => simp
  | cons b rest ih =>
    intro h
    obtain ⟨o, s⟩ := b
    unfold allocate
    by_cases hfit : sz ≤ s
    · rw [if_pos hfit]
      by_cases hz : s - sz = 0
      · rw [if_pos hz]
        rw [sumSizes_cons]
        simp only
        omega
      · rw [if_neg hz]
        rw [sumSizes_cons, sumSizes_cons]
        simp only
        omega
    · rw [if_neg hfit]
      have hrest : ∃ b ∈ rest, sz ≤ b.2 := by
        obtain ⟨b, hb, hbs⟩ := h
        rcases List.mem_cons.mp hb with rfl | hbr
        · exact absurd hbs (by simpa using hfit)
        · exact ⟨b, hbr, hbs⟩
      rw [sumSizes_cons, sumSizes_cons]
      simp only
      have := ih hrest
      omega

/-- `allocate` preserves the sentinel-reserving representability bound. -/
theorem allocate_FB {sz : ℕ} :
    ∀ {fl : FreeList}, FB fl → FB (allocate sz fl).2 := by
  intro fl
  induction fl with
  | nil => intro _; simp [allocate, FB]
  | cons b rest ih =>
    intro hFB
    obtain ⟨o, s⟩ := b
    have hhd := hFB (o, s) (by simp)
    simp only at hhd
    have htl : FB rest := fun b hb => hFB b (List.mem_cons_of_mem _ hb)
    unfold allocate
    by_cases hfit : sz ≤ s
    · rw [if_pos hfit]
      by_cases hz : s - sz = 0
      · rw [if_pos hz]
        exact htl
      · rw [if_neg hz]
        intro b hb
        rcases List.mem_cons.mp hb with rfl | hbr
        · have hmod : (o + sz) % M = o + sz :=
            Nat.mod_eq_of_lt (by have := sentinel_lt_M; omega)
          constructor
          · show (o + sz) % M < sentinel
            rw [hmod]
            omega
          · show (o + sz) % M + (s - sz) ≤ sentinel
            rw [hmod]
            omega
        · exact htl b hbr
    · rw [if_neg hfit]
      intro b hb
      rcases List.mem_cons.mp hb with rfl | hbr
      · exact hFB (o, s) (by simp)
      · exact ih htl b hbr

/-- Under the sentinel-reserving bound, a successful allocation returns an
offset strictly below the sentinel, and the allocated range stays within the
managed space. -/
theorem allocate_ret_bound {sz : ℕ} {fl : FreeList} (hFB : FB fl)
    (h : ∃ b ∈ fl, sz ≤ b.2) :
    (allocate sz fl).1 < sentinel ∧ (allocate sz fl).1 + sz ≤ sentinel := by
  obtain ⟨b, hb, hb1, hb2⟩ := allocate_ret_mem h
  have := hFB b hb
  rw [hb1]
  omega

theorem sumLive_cons (p : ℕ × ℕ) (l : List (ℕ × ℕ)) :
    sumLive (p :: l) = p.2 + sumLive l := by
  simp [sumLive]

theorem sumLive_erase {live : List (ℕ × ℕ)} {p : ℕ × ℕ} (hp : p ∈ live) :
    sumLive (live.erase p) + p.2 = sumLive live := by
  induction live with
  | nil => simp at hp
  | cons a rest ih =>
    by_cases hap : a = p
    · subst hap
      rw [List.erase_cons_head, sumLive_cons]
      omega
    · rw [List.erase_cons_tail (by simp [hap]), sumLive_cons, sumLive_cons]
      have hp' : p ∈ rest := by
        rcases List.mem_cons.mp hp with rfl | h
        · exact absurd rfl hap
        · exact h
      have := ih hp'
      omega

theorem mini2_le (a : List ℕ) (size key : ℕ) : mini2 a size key ≤ size := by
  unfold mini2
  exact bsearch_le _ _ _

/-- Whatever branch `deallocate` takes — even on stores that are merely
representable, with no sortedness assumed — it adds exactly the freed size to
the stored free total and preserves the representability bound. -/
theorem deallocCore_sum_FB {offset sz : ℕ} {fl : FreeList} (hne : fl ≠ [])
    (hFB : FB fl) (hoff : offset < sentinel) (hend : offset + sz ≤ sentinel) :
    sumSizes (deallocCore offset sz fl) = sumSizes fl + sz ∧
      FB (deallocCore offset sz fl) := by
  have hn : 0 < fl.length := List.length_pos.mpr hne
  have hsM := sentinel_lt_M
  simp only [deallocCore]
  generalize hidx : mini2 (fl.map Prod.fst) fl.length offset = idx
  have hidxle : idx ≤ fl.length := by
    rw [← hidx]
    exact mini2_le _ _ _
  rw [Nat.mod_eq_of_lt (show offset + sz < M by omega)]
  by_cases h0 : idx = 0
  · rw [if_pos h0]
    have hfFB := hFB _ (@getD_mem _ _ _ (0, 0) hn)
    have hd0 : fl = fl.getD 0 (0, 0) :: fl.drop 1 := by
      have := @decomp _ _ _ (0, 0) hn
      simpa using this
    have htail : fl.tail = fl.drop 1 := (List.drop_one fl).symm
    by_cases hc : offset + sz = (fl.getD 0 (0, 0)).1
    · rw [if_pos hc]
      have hmod2 : ((fl.getD 0 (0, 0)).2 + sz) % M = (fl.getD 0 (0, 0)).2 + sz :=
        Nat.mod_eq_of_lt (by omega)
      rw [hmod2]
      constructor
      · rw [sumSizes_cons]
        conv_rhs => rw [hd0, sumSizes_cons]
        simp only [htail]
        omega
      · intro b hb
        rcases List.mem_cons.mp hb with rfl | hbr
        · exact ⟨hoff, by show offset + ((fl.getD 0 (0, 0)).2 + sz) ≤ sentinel; omega⟩
        · rw [htail] at hbr
          exact hFB b (List.drop_subset _ _ hbr)
    · rw [if_neg hc]
      constructor
      · rw [sumSizes_cons]
        omega
      · intro b hb
        rcases List.mem_cons.mp hb with rfl | hbr
        · exact ⟨hoff, hend⟩
        · exact hFB b hbr
  · rw [if_neg h0]
    by_cases hN : idx = fl.length
    · rw [if_pos hN]
      have hlm : fl.length - 1 < fl.length := by omega
      have hlFB := hFB _ (@getD_mem _ _ _ (0, 0) hlm)
      have hdec := @decomp _ _ _ (0, 0) hlm
      have hdrop : fl.drop (fl.length - 1 + 1) = [] := by
        rw [show fl.length - 1 + 1 = fl.length by omega]
        exact List.drop_length fl
      rw [hdrop] at hdec
      rw [Nat.mod_eq_of_lt (show (fl.getD (fl.length - 1) (0, 0)).1 +
        (fl.getD (fl.length - 1) (0, 0)).2 < M by omega)]
      by_cases hc : (fl.getD (fl.length - 1) (0, 0)).1 +
          (fl.getD (fl.length - 1) (0, 0)).2 = offset
      · rw [if_pos hc]
        have hmod2 : ((fl.getD (fl.length - 1) (0, 0)).2 + sz) % M =
            (fl.getD (fl.length - 1) (0, 0)).2 + sz := Nat.mod_eq_of_lt (by omega)
        rw [hmod2, List.set_eq_take_cons_drop _ hlm, hdrop]
        constructor
        · rw [sumSizes_append, sumSizes_cons]
          conv_rhs => rw [hdec, sumSizes_append, sumSizes_cons]
          simp only [sumSizes]
          omega
        · intro b hb
          rcases List.mem_append.mp hb with hbT | hbS
          · exact hFB b (List.take_subset _ _ hbT)
          · rcases List.mem_cons.mp hbS with rfl | hbD
            · refine ⟨by omega, ?_⟩
              show (fl.getD (fl.length - 1) (0, 0)).1 +
                ((fl.getD (fl.length - 1) (0, 0)).2 + sz) ≤ sentinel
              omega
            · simp at hbD
      · rw [if_neg hc]
        constructor
        · rw [sumSizes_append]
          simp only [sumSizes, List.map_cons, List.map_nil, List.sum_cons,
            List.sum_nil]
          omega
        · intro b hb
          rcases List.mem_append.mp hb with hbT | hbS
          · exact hFB b hbT
          · rcases List.mem_cons.mp hbS with rfl | hbD
            · exact ⟨hoff, hend⟩
            · simp at hbD
    · obtain ⟨k, rfl⟩ : ∃ k, idx = k + 1 := ⟨idx - 1, by omega⟩
      rw [if_neg hN]
      have hkn : k + 1 < fl.length := by omega
      have hkm : k < fl.length := by omega
      simp only [Nat.add_sub_cancel]
      have hpFB := hFB _ (@getD_mem _ _ _ (0, 0) hkm)
      have hsFB := hFB _ (@getD_mem _ _ _ (0, 0) hkn)
      rw [Nat.mod_eq_of_lt (show (fl.getD k (0, 0)).1 +
        (fl.getD k (0, 0)).2 < M by omega)]
      by_cases hpc : (fl.getD k (0, 0)).1 + (fl.getD k (0, 0)).2 = offset
      · rw [if_pos hpc]
        have e1 : ((fl.getD k (0, 0)).2 + sz) % M = (fl.getD k (0, 0)).2 + sz :=
          Nat.mod_eq_of_lt (by omega)
        have e2 : ((fl.getD k (0, 0)).1 + ((fl.getD k (0, 0)).2 + sz)) % M =
            offset + sz := by
          rw [show (fl.getD k (0, 0)).1 + ((fl.getD k (0, 0)).2 + sz) =
            offset + sz by omega]
          exact Nat.mod_eq_of_lt (by omega)
        rw [e1, e2]
        have hdec2 : fl = fl.take k ++ fl.getD k (0, 0) ::
            fl.getD (k + 1) (0, 0) :: fl.drop (k + 2) := by
          have h0' := @decomp _ _ _ (0, 0) hkm
          rw [drop_succ_getD hkn] at h0'
          exact h0'
        by_cases hsc : (fl.getD (k + 1) (0, 0)).1 = offset + sz
        · rw [if_pos hsc]
          have e3 : ((fl.getD k (0, 0)).2 + sz + (fl.getD (k + 1) (0, 0)).2) % M =
              (fl.getD k (0, 0)).2 + sz + (fl.getD (k + 1) (0, 0)).2 :=
            Nat.mod_eq_of_lt (by omega)
          rw [e3, set_eraseIdx_succ hkn]
          constructor
          · rw [sumSizes_append, sumSizes_cons]
            conv_rhs => rw [hdec2, sumSizes_append, sumSizes_cons, sumSizes_cons]
            omega
          · intro b hb
            rcases List.mem_append.mp hb with hbT | hbS
            · exact hFB b (List.take_subset _ _ hbT)
            · rcases List.mem_cons.mp hbS with rfl | hbD
              · refine ⟨by omega, ?_⟩
                show (fl.getD k (0, 0)).1 + ((fl.getD k (0, 0)).2 + sz +
                  (fl.getD (k + 1) (0, 0)).2) ≤ sentinel
                omega
              · exact hFB b (List.drop_subset _ _ hbD)
        · rw [if_neg hsc]
          rw [List.set_eq_take_cons_drop _ hkm]
          constructor
          · rw [sumSizes_append, sumSizes_cons]
            conv_rhs => rw [@decomp _ _ _ (0, 0) hkm, sumSizes_append,
              sumSizes_cons]
            omega
          · intro b hb
            rcases List.mem_append.mp hb with hbT | hbS
            · exact hFB b (List.take_subset _ _ hbT)
            · rcases List.mem_cons.mp hbS with rfl | hbD
              · refine ⟨by omega, ?_⟩
                show (fl.getD k (0, 0)).1 + ((fl.getD k (0, 0)).2 + sz) ≤ sentinel
                omega
              · exact hFB b (List.drop_subset _ _ hbD)
      · rw [if_neg hpc]
        by_cases hsc : (fl.getD (k + 1) (0, 0)).1 = offset + sz
        · rw [if_pos hsc]
          have e4 : sz % M = sz := Nat.mod_eq_of_lt (by omega)
          have e5 : ((fl.getD (k + 1) (0, 0)).1 + (M - sz)) % M = offset := by
            rw [show (fl.getD (k + 1) (0, 0)).1 + (M - sz) = offset + M by omega]
            rw [Nat.add_mod_right]
            exact Nat.mod_eq_of_lt (by omega)
          have e6 : ((fl.getD (k + 1) (0, 0)).2 + sz) % M =
              (fl.getD (k + 1) (0, 0)).2 + sz := Nat.mod_eq_of_lt (by omega)
          rw [e4, e5, e6, List.set_eq_take_cons_drop _ hkn]
          constructor
          · rw [sumSizes_append, sumSizes_cons]
            conv_rhs => rw [@decomp _ _ _ (0, 0) hkn, sumSizes_append,
              sumSizes_cons]
            omega
          · intro b hb
            rcases List.mem_append.mp hb with hbT | hbS
            · exact hFB b (List.take_subset _ _ hbT)
            · rcases List.mem_cons.mp hbS with rfl | hbD
              · refine ⟨hoff, ?_⟩
                show offset + ((fl.getD (k + 1) (0, 0)).2 + sz) ≤ sentinel
                omega
              · exact hFB b (List.drop_subset _ _ hbD)
        · rw [if_neg hsc]
          constructor
          · rw [sumSizes_append, sumSizes_cons]
            conv_rhs => rw [← List.take_append_drop (k + 1) fl, sumSizes_append]
            omega
          · intro b hb
            rcases List.mem_append.mp hb with hbT | hbS
            · exact hFB b (List.take_subset _ _ hbT)
            · rcases List.mem_cons.mp hbS with rfl | hbD
              · exact ⟨hoff, hend⟩
              · exact hFB b (List.drop_subset _ _ hbD)

/-- Every valid call preserves the trace invariant. -/
theorem step_inv {total : ℕ} {s s' : AllocState} {op : Op}
    (h : TraceInv total s) (hstep : step s op = some s') : TraceInv total s' := by
  obtain ⟨hFB, hLB, hsum⟩ := h
  cases op with
  | alloc sz =>
    simp only [step] at hstep
    by_cases hr : (allocate sz s.fl).1 = sentinel
    · rw [if_pos hr] at hstep
      have hnofit : ∀ b ∈ s.fl, b.2 < sz := by
        by_contra hcon
        push_neg at hcon
        obtain ⟨b, hb, hbs⟩ := hcon
        have := (allocate_ret_bound hFB ⟨b, hb, hbs⟩).1
        omega
      have hall := allocate_no_fit hnofit
      rw [hall] at hstep
      obtain rfl := Option.some.inj hstep
      exact ⟨hFB, hLB, hsum⟩
    · rw [if_neg hr] at hstep
      obtain rfl := Option.some.inj hstep
      have hfit : ∃ b ∈ s.fl, sz ≤ b.2 := by
        by_contra hcon
        push_neg at hcon
        rw [allocate_no_fit (fun b hb => by have := hcon b hb; omega)] at hr
        exact hr rfl
      refine ⟨allocate_FB hFB, ?_, ?_⟩
      · intro p hp
        rcases List.mem_cons.mp hp with rfl | hpr
        · exact allocate_ret_bound hFB hfit
        · exact hLB p hpr
      · show sumSizes (allocate sz s.fl).2 +
          sumLive (((allocate sz s.fl).1, sz) :: s.live) = total
        rw [sumLive_cons]
        have := allocate_sum_fit hfit
        simp only at this ⊢
        omega
  | dealloc offset sz =>
    simp only [step] at hstep
    by_cases hmem : (offset, sz) ∈ s.live
    · rw [if_pos hmem] at hstep
      cases hdel : deallocate offset sz s.fl with
      | none =>
        rw [hdel] at hstep
        exact absurd hstep (by simp)
      | some fl' =>
        rw [hdel] at hstep
        obtain rfl := Option.some.inj hstep
        have hpb := hLB _ hmem
        simp only at hpb
        have hflne : s.fl ≠ [] := by
          intro hcon
          rw [deallocate, if_pos hcon] at hdel
          exact absurd hdel (by simp)
        have hcore : fl' = deallocCore offset sz s.fl := by
          rw [deallocate, if_neg hflne] at hdel
          exact (Option.some.inj hdel).symm
        obtain ⟨hsum', hFB'⟩ := deallocCore_sum_FB hflne hFB hpb.1 hpb.2
        subst hcore
        refine ⟨hFB', ?_, ?_⟩
        · intro p hp
          exact hLB p (List.erase_subset _ _ hp)
        · show sumSizes (deallocCore offset sz s.fl) +
            sumLive (s.live.erase (offset, sz)) = total
          have herase := sumLive_erase hmem
          simp only at herase
          omega
    · rw [if_neg hmem] at hstep
      exact absurd hstep (by simp)

/-- Every valid trace preserves the trace invariant. -/
theorem run_inv {total : ℕ} :
    ∀ {ops : List Op} {s s' : AllocState},
      TraceInv total s → run ops s = some s' → TraceInv total s' := by
  intro ops
  induction ops with
  | nil =>
    intro s s' h hrun
    simp only [run] at hrun
    obtain rfl := Option.some.inj hrun
    exact h
  | cons op rest ih =>
    intro s s' h hrun
    simp only [run] at hrun
    cases hstep : step s op with
    | none => rw [hstep] at hrun; exact absurd hrun (by simp)
    | some s1 =>
      rw [hstep] at hrun
      exact ih (step_inv h hstep) hrun

/-! ## Access-bounds lemmas -/

theorem bsLoopReadsF_lt (g : ℕ → ℕ) (key : ℕ) :
    ∀ fuel (p : ℕ × ℕ) (n : ℕ), p.2 ≤ fuel → p.1 + p.2 ≤ n → 1 ≤ p.2 →
      ∀ j ∈ bsLoopReadsF g key (fuel + 1) p, j < n := by
  intro fuel
  induction fuel with
  | zero =>
    intro p n hf h3 h1 j hj
    omega
  | succ f ih =>
    intro p n hf h3 h1 j hj
    have hq1 := (bsStep_le g key p).2
    have hq1' := (bsStep_le g key p).1
    have hq2 := (bsStep_le g key (bsStep g key p)).2
    have hs1 : (bsStep g key p).2 = (p.2 + 1) / 2 := bsStep_snd ..
    have hs2 : (bsStep g key (bsStep g key p)).2 =
        ((p.2 + 1) / 2 + 1) / 2 := by
      rw [bsStep_snd, bsStep_snd]
    simp only [bsLoopReadsF, bsStepReads, List.mem_append, List.mem_singleton,
      List.mem_cons, List.cons_append, List.nil_append] at hj
    rcases hj with hj | hj | hj
    · omega
    · omega
    · split at hj
      · refine ih (bsStep g key (bsStep g key p)) n (by omega) (by omega)
          (by omega) j hj
      · simp at hj

theorem bsFinal1_le (g : ℕ → ℕ) (key : ℕ) (p : ℕ × ℕ) :
    p.1 ≤ bsFinal1 g key p ∧ bsFinal1 g key p ≤ p.1 + 1 ∧
      (p.2 ≤ 1 → bsFinal1 g key p = p.1) := by
  unfold bsFinal1
  split <;> rename_i h
  · exact ⟨by omega, by omega, fun h1 => by omega⟩
  · exact ⟨le_refl _, by omega, fun _ => rfl⟩

theorem bsFinalReads_lt (g : ℕ → ℕ) (key n : ℕ) (p : ℕ × ℕ)
    (h3 : p.1 + p.2 ≤ n) (h4 : p.2 ≤ 2) (h1 : 1 ≤ p.2) :
    ∀ j ∈ bsFinalReads g key p, j < n := by
  intro j hj
  obtain ⟨ha, hb, hc⟩ := bsFinal1_le g key p
  simp only [bsFinalReads, List.mem_append] at hj
  rcases hj with hj | hj
  · split at hj
    · simp only [List.mem_singleton] at hj
      omega
    · simp at hj
  · split at hj <;> rename_i hcond
    · simp only [List.mem_singleton] at hj
      subst hj
      rcases (by omega : p.2 = 1 ∨ p.2 = 2) with h | h
      · have := hc (by omega)
        omega
      · omega
    · simp at hj

theorem bsearchReads_lt (g : ℕ → ℕ) (size key : ℕ) (h1 : 1 ≤ size) :
    ∀ j ∈ bsearchReads g size key, j < size := by
  intro j hj
  simp only [bsearchReads, List.mem_append] at hj
  rcases hj with hj | hj
  · exact bsLoopReadsF_lt g key size (0, size) size (le_refl _) (by omega)
      (by omega) j hj
  · obtain ⟨ha, hb, hcpos⟩ := bsLoopF_bounds g key size (0, size) size
      (le_refl _) (by simp)
    exact bsFinalReads_lt g key size _ ha hb (hcpos (by omega)) j hj

/-- With a non-empty store, every index `deallocate` touches in the parallel
arrays is in bounds, and the assertion-guarded empty-store branch is not
taken. -/
theorem deallocReads_lt {offset sz : ℕ} {fl : FreeList} (hne : fl ≠ []) :
    (∀ j ∈ deallocReads offset sz fl, j < fl.length) ∧
      (deallocate offset sz fl).isSome = true := by
  have hn : 0 < fl.length := List.length_pos.mpr hne
  constructor
  · intro j hj
    simp only [deallocReads, List.mem_append] at hj
    rcases hj with hj | hj
    · exact bsearchReads_lt _ _ _ (by omega) j hj
    · have hle := mini2_le (fl.map Prod.fst) fl.length offset
      split at hj
      · simp only [List.mem_singleton] at hj
        omega
      · split at hj
        · simp only [List.mem_singleton] at hj
          omega
        · rename_i hne0 hnen
          simp only [List.mem_cons, List.mem_singleton] at hj
          rcases hj with rfl | rfl | h
          · omega
          · omega
          · simp at h
  · simp [deallocate, hne]

/-! ## Claim theorems -/

/-- Claim C1: for every free list satisfying invariants 1-4 (and representable
in the `uint32_t` value space) and every `allocate` or `deallocate` call
consistent with the stated preconditions (non-empty store, positive freed
size, freed range inside the managed space and not currently marked free),
the free list after the call again satisfies invariants 1-4. -/
theorem claim_C1_invariant_preservation :
    (∀ (fl : FreeList) (sz : ℕ), Inv fl → Bounded fl →
        Inv (allocate sz fl).2) ∧
      ∀ (fl : FreeList) (offset sz : ℕ) (fl' : FreeList),
        Inv fl → Bounded fl → fl ≠ [] → 0 < sz → offset + sz < M →
        DisjointFrom fl offset sz → deallocate offset sz fl = some fl' →
        Inv fl' := by
  constructor
  · intro fl sz hInv hB
    obtain ⟨h3, h4⟩ := (Inv_iff fl).mp hInv
    obtain ⟨a, b, _, _⟩ := allocate_aux sz h3 h4 hB
    exact (Inv_iff _).mpr ⟨a, b⟩
  · intro fl offset sz fl' hInv hB hne hsz hM hdisj hdel
    rw [deallocate, if_neg hne] at hdel
    have hfl' : fl' = deallocCore offset sz fl := (Option.some.inj hdel).symm
    subst hfl'
    rw [deallocCore_eq_spec hInv hB hM hne]
    exact deallocSpec_inv hInv hne hsz hdisj

theorem claim_C1_witness :
    Inv (allocate 20 [(0, 50), (60, 10)]).2 ∧ Inv [(0, 30), (40, 10)] := by
  constructor
  · exact claim_C1_invariant_preservation.1 [(0, 50), (60, 10)] 20
      (by refine ⟨?_, ?_, ?_, ?_⟩ <;> norm_num [List.chain'_cons])
      (by unfold Bounded M; decide)
  · exact claim_C1_invariant_preservation.2 [(0, 10), (40, 10)] 10 20
      [(0, 30), (40, 10)]
      (by refine ⟨?_, ?_, ?_, ?_⟩ <;> norm_num [List.chain'_cons])
      (by unfold Bounded M; decide) (by decide) (by decide)
      (by unfold M; decide) (by unfold DisjointFrom; decide) (by decide)

/-- Claim C2: on a non-empty invariant-satisfying store, `deallocate` of a
range not currently marked free locates the lower-bound insertion point by
offset and applies exactly the specified four-way case analysis
(`deallocSpec`); in particular `deallocate(10,10)` on `[(0,10),(20,10)]`
yields `[(0,30)]` (merge-both) and `deallocate(20,10)` on `[(0,10),(50,10)]`
yields `[(0,10),(20,10),(50,10)]` (standalone insert). -/
theorem claim_C2_deallocate_cases :
    (∀ (fl : FreeList) (offset sz : ℕ), Inv fl → Bounded fl → fl ≠ [] →
        offset + sz < M →
        deallocate offset sz fl = some (deallocSpec offset sz fl)) ∧
      deallocate 10 10 [(0, 10), (20, 10)] = some [(0, 30)] ∧
      deallocate 20 10 [(0, 10), (50, 10)] =
        some [(0, 10), (20, 10), (50, 10)] := by
  refine ⟨?_, by decide, by decide⟩
  intro fl offset sz hInv hB hne hM
  rw [deallocate, if_neg hne, deallocCore_eq_spec hInv hB hM hne]

theorem claim_C2_witness :
    deallocate 30 5 [(0, 10), (20, 10)] =
      some (deallocSpec 30 5 [(0, 10), (20, 10)]) :=
  claim_C2_deallocate_cases.1 [(0, 10), (20, 10)] 30 5
    (by refine ⟨?_, ?_, ?_, ?_⟩ <;> norm_num [List.chain'_cons])
    (by unfold Bounded M; decide) (by decide) (by unfold M; decide)

/-- Claim C3: when some stored block fits, `allocate` takes the first block
(in ascending-offset order) whose size is at least the request, returns its
offset, advances its offset and shrinks its size by the request, and erases
it exactly when the remaining size is zero. -/
theorem claim_C3_first_fit :
    ∀ (fl : FreeList) (sz i : ℕ), Bounded fl → i < fl.length →
      sz ≤ (fl.getD i (0, 0)).2 → (∀ b ∈ fl.take i, b.2 < sz) →
      allocate sz fl = ((fl.getD i (0, 0)).1,
        if (fl.getD i (0, 0)).2 - sz = 0 then fl.eraseIdx i
        else fl.set i ((fl.getD i (0, 0)).1 + sz, (fl.getD i (0, 0)).2 - sz)) :=
  fun _ _ _ hB hi hfit hfirst => allocate_first_fit hB hi hfit hfirst

theorem claim_C3_witness :
    allocate 20 [(0, 50), (60, 10), (80, 100)] =
      (0, [(20, 30), (60, 10), (80, 100)]) :=
  (claim_C3_first_fit [(0, 50), (60, 10), (80, 100)] 20 0
    (by unfold Bounded M; decide) (by decide) (by decide) (by decide)).trans
    (by decide)

/-- Claim C4: both forms of the branchless binary search (`mini2` comparing
elements directly and the indirect form comparing `data[*it]`) return the
standard lower-bound position — the first entry not less than the key — on
every sorted sequence, and the end position on the empty sequence. -/
theorem claim_C4_lower_bound :
    (∀ (a : List ℕ) (key : ℕ), a.Sorted (· ≤ ·) →
        mini2 a a.length key = lowerBound a key) ∧
      (∀ (idxs data : List ℕ) (key : ℕ),
        (idxs.map fun j => data.getD j 0).Sorted (· ≤ ·) →
        mini2Indirect idxs data idxs.length key =
          lowerBound (idxs.map fun j => data.getD j 0) key) ∧
      (∀ key : ℕ, mini2 [] 0 key = 0) ∧
      ∀ (data : List ℕ) (key : ℕ), mini2Indirect [] data 0 key = 0 := by
  refine ⟨fun a key hs => mini2_lowerBound hs,
    fun idxs data key hs => mini2Indirect_lowerBound hs, ?_, ?_⟩
  · intro key
    exact @mini2_lowerBound [] key (by simp)
  · intro data key
    exact @mini2Indirect_lowerBound [] data key (by simp)

theorem claim_C4_witness :
    mini2 [3, 5, 9] 3 6 = lowerBound [3, 5, 9] 6 :=
  claim_C4_lower_bound.1 [3, 5, 9] 6 (by decide)

/-- Claim C5: when no stored block is large enough, `allocate` returns the
maximum representable `uint32_t` value (the sentinel) and leaves the store
completely unchanged. -/
theorem claim_C5_sentinel_on_exhaustion :
    ∀ (fl : FreeList) (sz : ℕ), (∀ b ∈ fl, b.2 < sz) →
      allocate sz fl = (sentinel, fl) :=
  fun _ _ h => allocate_no_fit h

theorem claim_C5_witness : allocate 20 [(5, 10)] = (sentinel, [(5, 10)]) :=
  claim_C5_sentinel_on_exhaustion [(5, 10)] 20 (by decide)

/-- Claim C6 (counterexample): allocating the single block in full empties
the store, and the immediate matching `deallocate` then violates the
non-empty-store precondition (debug assertion) instead of restoring the
original free list. -/
theorem claim_C6_cex :
    ¬ (deallocate (allocate 10 [(0, 10)]).1 10 (allocate 10 [(0, 10)]).2 =
      some [(0, 10)]) := by
  decide

/-- Claim C6 (amended): a successful `allocate` immediately undone by
`deallocate` with the returned offset and the same size restores the free
list exactly — provided the free list is still non-empty after the
allocation, as `deallocate`'s precondition requires. -/
theorem claim_C6_roundtrip :
    ∀ (fl : FreeList) (sz : ℕ), Inv fl → Bounded fl →
      (allocate sz fl).1 ≠ sentinel → (allocate sz fl).2 ≠ [] →
      deallocate (allocate sz fl).1 sz (allocate sz fl).2 = some fl :=
  fun _ _ hInv hB hsucc hne => roundtrip hInv hB hsucc hne

theorem claim_C6_witness :
    deallocate (allocate 5 [(0, 10), (20, 10)]).1 5
      (allocate 5 [(0, 10), (20, 10)]).2 = some [(0, 10), (20, 10)] :=
  claim_C6_roundtrip [(0, 10), (20, 10)] 5
    (by refine ⟨?_, ?_, ?_, ?_⟩ <;> norm_num [List.chain'_cons])
    (by unfold Bounded M; decide) (by unfold sentinel M; decide) (by decide)

/-- Claim C7 (counterexample): after `allocate(30)`, `allocate(70)` and
`allocate(1)` starting from `[(0,100)]`, the store is empty, so
`deallocate(0,30)` hits the empty-store assertion instead of producing
`[(0,30)]`. -/
theorem claim_C7_cex :
    ¬ (deallocate 0 30
        (allocate 1 (allocate 70 (allocate 30 [(0, 100)]).2).2).2 =
      some [(0, 30)]) := by
  decide

/-- Claim C7 (amended): starting from `[(0,100)]`, `allocate(30)` returns 0
leaving `[(30,70)]`, `allocate(70)` returns 30 leaving `[]`, and
`allocate(1)` returns the sentinel; the subsequent `deallocate(0,30)` call
violates the documented non-empty precondition (`assert(!offsets_.empty())`),
so the final two states of the spec's scenario are not produced. -/
theorem claim_C7_scenario :
    allocate 30 [(0, 100)] = (0, [(30, 70)]) ∧
      allocate 70 [(30, 70)] = (30, []) ∧
      allocate 1 ([] : FreeList) = (sentinel, []) ∧
      deallocate 0 30 ([] : FreeList) = none := by
  decide

/-- Claim C8: for every sequence of valid calls starting from a seeded store
(representable with the sentinel reserved), the sum of stored free sizes plus
the sum of live-allocation sizes equals the seeded total after every call. -/
theorem claim_C8_conservation :
    ∀ (fl0 : FreeList), FB fl0 → ∀ (ops : List Op) (s : AllocState),
      run ops ⟨fl0, []⟩ = some s →
      sumSizes s.fl + sumLive s.live = sumSizes fl0 := by
  intro fl0 hFB ops s hrun
  have h0 : TraceInv (sumSizes fl0) ⟨fl0, []⟩ :=
    ⟨hFB, by intro p hp; simp at hp, by simp [sumLive]⟩
  exact (run_inv h0 hrun).2.2

theorem claim_C8_witness :
    sumSizes (AllocState.mk [(0, 100)] []).fl +
        sumLive (AllocState.mk [(0, 100)] []).live = sumSizes [(0, 100)] := by
  have h := claim_C8_conservation [(0, 100)] (by unfold FB sentinel M; decide)
    [Op.alloc 30, Op.dealloc 0 30] ⟨[(0, 100)], []⟩ (by decide)
  exact h

/-- Claim C9: on a non-empty store, `deallocate` performs no out-of-bounds
access: every index read by the binary search and every `front`/`back`/
interior (`idx-1`, `idx`) access is within bounds, and the assertion-guarded
empty-store failure branch is not taken. -/
theorem claim_C9_bounds_safety :
    ∀ (offset sz : ℕ) (fl : FreeList), fl ≠ [] →
      (∀ j ∈ deallocReads offset sz fl, j < fl.length) ∧
        (deallocate offset sz fl).isSome = true :=
  fun _ _ _ hne => deallocReads_lt hne

theorem claim_C9_witness :
    (∀ j ∈ deallocReads 10 5 [(0, 10), (20, 10)], j < 2) ∧
      (deallocate 10 5 [(0, 10), (20, 10)]).isSome = true := by
  have h := claim_C9_bounds_safety 10 5 [(0, 10), (20, 10)] (by decide)
  simpa using h

/-- Claim C10 (counterexample): on a store holding a zero-size block — a
state the claim's universal quantification includes — `allocate(0)` erases
the entry instead of leaving the list unchanged. -/
theorem claim_C10_cex : (allocate 0 [(5, 0)]).2 ≠ [(5, 0)] := by
  decide

/-- Claim C10 (amended): on every store that is `uint32_t`-representable and
whose stored sizes are all positive (invariant 4), `allocate(0)` returns the
first block's offset and leaves the store unchanged; on the empty store it
returns the sentinel. -/
theorem claim_C10_alloc_zero :
    (∀ fl : FreeList, fl ≠ [] → (∀ b ∈ fl, 0 < b.2) → Bounded fl →
        allocate 0 fl = ((fl.getD 0 (0, 0)).1, fl)) ∧
      allocate 0 ([] : FreeList) = (sentinel, []) := by
  constructor
  · intro fl hne hpos hB
    rcases fl with _ | ⟨⟨o, s⟩, rest⟩
    · exact absurd rfl hne
    · have hs := hpos (o, s) (by simp)
      have hoM := hB (o, s) (by simp)
      simp only at hs hoM
      unfold allocate
      rw [if_pos (Nat.zero_le s)]
      rw [if_neg (by omega)]
      simp only [List.getD_cons_zero]
      rw [Nat.add_zero, Nat.mod_eq_of_lt (by omega)]
      simp
  · rfl

theorem claim_C10_witness : allocate 0 [(5, 10)] = (5, [(5, 10)]) :=
  (claim_C10_alloc_zero.1 [(5, 10)] (by decide) (by decide)
    (by unfold Bounded M; decide)).trans (by decide)

end Acl
